import Mathlib

/-!
# A shallow embedding of `neo4j_union_find.py`

The source program implements a union-find (disjoint-set) structure whose
backing store is a Neo4j graph.  Element nodes carry the properties `id`,
`type`, `name`, `weight`; set membership is encoded by `HAS_PARENT`
relationships, and a root is a node whose `HAS_PARENT` edge is a self-loop.

The embedding below models the Neo4j store as a list of element nodes
together with a list of directed `HAS_PARENT` edges (pairs of node ids, in
creation order) and a counter supplying fresh node ids (standing in for
`uuid4().hex`).  Where the source runs an unbounded Cypher traversal
(`-[:HAS_PARENT*]->`), the embedding uses an explicitly fuelled traversal
with fuel `st.nodes.length + 1`; a Cypher path never repeats a
relationship, and every chain of a well-formed store reaches its root in at
most `st.nodes.length` hops, so this fuel is sufficient on every store the
program can actually reach (this is part of the invariant `Inv` proved
below).  Failures of the Python code (`IndexError` from `[0]` on an empty
query result, `ValueError` from `max` on an empty sequence, a
`match_one` miss inside `_set_parent`) are modelled by `Option`.
-/

set_option linter.unusedVariables false

namespace NeoUF

/-- An element node of the store, with the four properties the source puts on
`py2neo.Node`: `id=uuid4().hex, type=type, name=name, weight=1`.  The fields
`ty`/`nm` stand for the Python `type`/`name` (reserved words in Lean). -/
structure Node where
  id : Nat
  ty : String
  nm : String
  weight : Nat
deriving DecidableEq, Repr

/-- The Neo4j store: element nodes, `HAS_PARENT` relationships
`(start id, end id)` in creation order, and the fresh-id counter. -/
structure Store where
  nodes : List Node
  edges : List (Nat × Nat)
  nextId : Nat
deriving DecidableEq, Repr

/-- A fresh, empty store. -/
def emptyStore : Store := ⟨[], [], 0⟩

/-- `self.select(type=type, name=name).first()`. -/
def lookup (st : Store) (t n : String) : Option Node :=
  st.nodes.find? (fun x => x.ty == t && x.nm == n)

/-- Fetching a node by its `id` property (the Cypher `match (r {id: '...'})`). -/
def getNode (st : Store) (i : Nat) : Option Node :=
  st.nodes.find? (fun x => x.id == i)

/-- `graph.match_one(start_node=node, rel_type="HAS_PARENT")`, reduced to the
target of the matched edge.  `match_one` picks an arbitrary matching edge; the
embedding fixes the first one in the list (on well-formed stores there is
exactly one). -/
def parentOf (st : Store) (i : Nat) : Option Nat :=
  (st.edges.find? (fun e => e.1 == i)).map Prod.snd

/-- `graph.match_one(start_node=existing, rel_type="HAS_PARENT",
end_node=existing) is not None`: is there a self-loop edge on `i`? -/
def isRoot (st : Store) (i : Nat) : Bool :=
  st.edges.contains (i, i)

/-- Number of `HAS_PARENT` edges whose start node is `i`. -/
def countSrc (es : List (Nat × Nat)) (i : Nat) : Nat :=
  es.countP (fun e => e.1 == i)

/-- `graph.separate(parent_relation)` where `parent_relation` is the first
edge out of `i`: remove that one edge. -/
def eraseFirstSrc : List (Nat × Nat) → Nat → List (Nat × Nat)
  | [], _ => []
  | e :: es, i => if e.1 == i then es else e :: eraseFirstSrc es i

/-- `UnionFind._set_parent(node, parent)`: match the existing outgoing
`HAS_PARENT` edge of `node`, `separate` it, and `create` a new edge to
`parent`.  If no edge matches, `match_one` returns `None` and
`graph.separate(None)` fails: modelled as `none`. -/
def setParent (st : Store) (i p : Nat) : Option Store :=
  match st.edges.find? (fun e => e.1 == i) with
  | none => none
  | some _ => some { st with edges := eraseFirstSrc st.edges i ++ [(i, p)] }

/-- The root-finding Cypher
`match ({id: '...'})-[:HAS_PARENT*]->(r)-[:HAS_PARENT]->(r) return r`,
as the fuelled walk along parent edges stopping at the first self-loop. -/
def rootOfAux (st : Store) : Nat → Nat → Option Nat
  | 0, _ => none
  | fuel+1, i =>
    match parentOf st i with
    | none => none
    | some p => if p == i then some i else rootOfAux st fuel p

/-- Fuel used for every traversal of `st`. -/
def fuelOf (st : Store) : Nat := st.nodes.length + 1

/-- Id of the root of the tree containing node `i` (`none` when the walk
does not reach a self-loop, in which case the Python query result is empty
and `[0]` raises `IndexError`). -/
def rootOf (st : Store) (i : Nat) : Option Nat :=
  rootOfAux st (fuelOf st) i

/-- Number of hops from `i` to the first self-loop along parent edges. -/
def chainLenAux (st : Store) : Nat → Nat → Option Nat
  | 0, _ => none
  | fuel+1, i =>
    match parentOf st i with
    | none => none
    | some p => if p == i then some 0 else (chainLenAux st fuel p).map (· + 1)

/-- Depth of node `i` in its tree. -/
def chainLen (st : Store) (i : Nat) : Option Nat :=
  chainLenAux st (fuelOf st) i

/-- Is `r` reachable from `i` along one or more parent edges?  (The pattern
`(a)-[:HAS_PARENT*]->(r)`; note a root reaches itself through its
self-loop.) -/
def reachesAux (st : Store) : Nat → Nat → Nat → Bool
  | 0, _, _ => false
  | fuel+1, i, r =>
    match parentOf st i with
    | none => false
    | some p => p == r || reachesAux st fuel p r

/-- The ancestors query
`match (r {id: '...'}) match (a)-[:HAS_PARENT*]->(r) return a`: every node
from which `r` is reachable in one or more hops (this includes `r` itself,
via its self-loop).  The Cypher cursor yields one row per *path*; since
re-running `_set_parent(a, root)` on the same `a` is idempotent on the
store, the embedding takes each ancestor once. -/
def ancestorsOf (st : Store) (r : Nat) : List Node :=
  st.nodes.filter (fun a => reachesAux st (fuelOf st) a.id r)

/-- The compression loop `for ancestor in ancestors: self._set_parent(ancestor, root)`. -/
def compress (st : Store) (r : Nat) : List Node → Option Store
  | [] => some st
  | a :: as' =>
    match setParent st a.id r with
    | none => none
    | some st1 => compress st1 r as'

/-- `UnionFind.find(type, name)`: locate or lazily create the element, then
resolve and return its root, compressing every known ancestor of the root
onto the root. -/
def find (st : Store) (t n : String) : Option (Node × Store) :=
  match lookup st t n with
  | none =>
    let node : Node := ⟨st.nextId, t, n, 1⟩
    some (node, ⟨st.nodes ++ [node], st.edges ++ [(st.nextId, st.nextId)], st.nextId + 1⟩)
  | some existing =>
    if isRoot st existing.id then
      some (existing, st)
    else
      match rootOf st existing.id with
      | none => none
      | some r =>
        match getNode st r with
        | none => none
        | some rootNode =>
          match compress st r (ancestorsOf st r) with
          | none => none
          | some st1 => some (rootNode, st1)

/-- `roots = [self.find(type=x[0], name=x[1]) for x in objects]`. -/
def findAll (st : Store) : List (String × String) → Option (List Node × Store)
  | [] => some ([], st)
  | p :: ps =>
    match find st p.1 p.2 with
    | none => none
    | some (r, st1) =>
      match findAll st1 ps with
      | none => none
      | some (rs, st2) => some (r :: rs, st2)

/-- `max(roots, key=itemgetter('weight'))`: Python's `max` keeps the current
element and replaces it only on a strictly greater key, so the *first*
maximal element wins; `max([])` raises `ValueError`, modelled as `none`. -/
def maxByWeight : List Node → Option Node
  | [] => none
  | r :: rs => some (rs.foldl (fun m x => if m.weight < x.weight then x else m) r)

/-- `self.graph.push(heaviest)` after `heaviest['weight'] += ...`: persist the
updated `weight` property of the node with id `i`. -/
def pushWeight (st : Store) (i w : Nat) : Store :=
  { st with nodes := st.nodes.map (fun x => if x.id == i then { x with weight := w } else x) }

/-- The merge loop of `UnionFind.union`.  `h` is the `heaviest` object and
`hw` the current value of its in-memory `weight` property (the Python code
mutates the `heaviest` object and pushes it before each reparenting). -/
def mergeLoop (st : Store) (h : Node) (hw : Nat) : List Node → Option Store
  | [] => some st
  | r :: rs =>
    if r.id == h.id then
      mergeLoop st h hw rs
    else
      let hw1 := hw + r.weight
      let st1 := pushWeight st h.id hw1
      match setParent st1 r.id h.id with
      | none => none
      | some st2 => mergeLoop st2 h hw1 rs

/-- `UnionFind.union(objects)`. -/
def union (st : Store) (objects : List (String × String)) : Option Store :=
  match findAll st objects with
  | none => none
  | some (roots, st1) =>
    match maxByWeight roots with
    | none => none
    | some h => mergeLoop st1 h h.weight roots

/-- A stream row: `dict` items `(local_id_type, local_id_name)` in iteration
order.  A missing value is an absent key; an empty value is the falsy `""`. -/
def filterRow (row : List (String × String)) : List (String × String) :=
  row.filter (fun p => !(p.2 == ""))

/-- `UnionFind.union_from_stream(stream)`: for each row, drop falsy values
(`filter(itemgetter(1), row.items())`) and union the rest. -/
def union_from_stream (st : Store) : List (List (String × String)) → Option Store
  | [] => some st
  | row :: rest =>
    match union st (filterRow row) with
    | none => none
    | some st1 => union_from_stream st1 rest

/-- `UnionFind.global_id(type, name)`. -/
def global_id (st : Store) (t n : String) : Option (Nat × Store) :=
  (find st t n).map (fun x => (x.1.id, x.2))

/-- One public operation on the structure. -/
inductive Op where
  | findOp (t n : String)
  | unionOp (objects : List (String × String))
  | streamOp (stream : List (List (String × String)))
deriving Repr

/-- Run one operation, keeping the resulting store. -/
def runOp (st : Store) : Op → Option Store
  | .findOp t n => (find st t n).map Prod.snd
  | .unionOp objs => union st objs
  | .streamOp s => union_from_stream st s

/-- Run a sequence of operations from a given store. -/
def runOps (st : Store) : List Op → Option Store
  | [] => some st
  | op :: ops =>
    match runOp st op with
    | none => none
    | some st1 => runOps st1 ops

/-! ## Derived notions: classes, invariants, reachability -/

/-- Number of element nodes whose forest-root is the node with id `r`. -/
def classSize (st : Store) (r : Nat) : Nat :=
  st.nodes.countP (fun y => rootOf st y.id == some r)

/-- The depth bound justifying the traversal fuel: every node resolves to a
root, at a depth strictly smaller than the size of its class. -/
def depthOkB (st : Store) (x : Node) : Bool :=
  match rootOf st x.id, chainLen st x.id with
  | some ρ, some s => decide (s < classSize st ρ)
  | _, _ => false

/-- Every node of the store resolves to a root within the fuel, at a depth
strictly smaller than its class size. -/
def DepthBounded (st : Store) : Prop :=
  ∀ x ∈ st.nodes, depthOkB st x = true

instance (st : Store) : Decidable (DepthBounded st) :=
  List.decidableBAll _ st.nodes

/-- Well-formedness of a store, as maintained by the program: ids are fresh
below the counter, edges run between existing nodes, ids and `(type, name)`
keys are unique, every node has exactly one outgoing `HAS_PARENT` edge, and
every node resolves to a root within the traversal fuel. -/
structure Inv (st : Store) : Prop where
  idsLt : ∀ x ∈ st.nodes, x.id < st.nextId
  edgeSrc : ∀ e ∈ st.edges, ∃ x ∈ st.nodes, x.id = e.1
  edgeTgt : ∀ e ∈ st.edges, ∃ x ∈ st.nodes, x.id = e.2
  nodupIds : (st.nodes.map Node.id).Nodup
  nodupKeys : (st.nodes.map fun x => (x.ty, x.nm)).Nodup
  oneEdge : ∀ x ∈ st.nodes, countSrc st.edges x.id = 1
  depth : DepthBounded st

theorem inv_def (st : Store) : Inv st ↔
    (∀ x ∈ st.nodes, x.id < st.nextId) ∧
    (∀ e ∈ st.edges, ∃ x ∈ st.nodes, x.id = e.1) ∧
    (∀ e ∈ st.edges, ∃ x ∈ st.nodes, x.id = e.2) ∧
    (st.nodes.map Node.id).Nodup ∧
    (st.nodes.map fun x => (x.ty, x.nm)).Nodup ∧
    (∀ x ∈ st.nodes, countSrc st.edges x.id = 1) ∧
    DepthBounded st :=
  ⟨fun h => ⟨h.1, h.2, h.3, h.4, h.5, h.6, h.7⟩,
   fun h => ⟨h.1, h.2.1, h.2.2.1, h.2.2.2.1, h.2.2.2.2.1, h.2.2.2.2.2.1, h.2.2.2.2.2.2⟩⟩

instance (st : Store) : Decidable (Inv st) :=
  decidable_of_iff _ (inv_def st).symm

/-- The weight invariant of the specification: the `weight` stored on each
current root equals the number of element nodes whose forest-root it is. -/
def WeightConservation (st : Store) : Prop :=
  ∀ x ∈ st.nodes, isRoot st x.id = true → x.weight = classSize st x.id

instance (st : Store) : Decidable (WeightConservation st) :=
  List.decidableBAll _ st.nodes

/-- `Reaches st i j`: node `j` is reachable from node `i` along one or more
`HAS_PARENT` edges (the unbounded reading of `(a)-[:HAS_PARENT*]->(r)`). -/
inductive Reaches (st : Store) : Nat → Nat → Prop
  | single {i j : Nat} : parentOf st i = some j → Reaches st i j
  | head {i j k : Nat} : parentOf st i = some j → Reaches st j k → Reaches st i k

/-- Ids of the non-heaviest roots a `union` call reparents, with multiplicity,
in processing order. -/
def lighterIds (roots : List Node) (h : Node) : List Nat :=
  (roots.filter (fun r => !(r.id == h.id))).map Node.id

/-- No duplicates in a list of ids. -/
def nodupIdsB : List Nat → Bool
  | [] => true
  | x :: xs => !(xs.contains x) && nodupIdsB xs

/-- The side condition under which a `union` call keeps weights exact: no
non-heaviest class is resolved from two different pairs of the call (the
code adds such a class's weight once per occurrence). -/
def unionOkB (st : Store) (objs : List (String × String)) : Bool :=
  match findAll st objs with
  | none => true
  | some (roots, _) =>
    match maxByWeight roots with
    | none => true
    | some h => nodupIdsB (lighterIds roots h)

/-- `unionOkB` for every row of a stream, along the run. -/
def streamOkB (st : Store) : List (List (String × String)) → Bool
  | [] => true
  | row :: rest =>
    unionOkB st (filterRow row) &&
      (match union st (filterRow row) with
       | none => true
       | some st1 => streamOkB st1 rest)

/-- `unionOkB` for one operation. -/
def opOkB (st : Store) : Op → Bool
  | .findOp _ _ => true
  | .unionOp objs => unionOkB st objs
  | .streamOp s => streamOkB st s

/-- Every `union` call of an operation sequence, run from `st`, satisfies the
duplicate-free side condition. -/
def opsOkB (st : Store) : List Op → Bool
  | [] => true
  | op :: ops =>
    opOkB st op &&
      (match runOp st op with
       | none => true
       | some st1 => opsOkB st1 ops)

/-! ## Lemmas about edges, `eraseFirstSrc`, `setParent` -/

theorem countSrc_cons (e : Nat × Nat) (es : List (Nat × Nat)) (i : Nat) :
    countSrc (e :: es) i = countSrc es i + (if e.1 = i then 1 else 0) := by
  unfold countSrc
  rw [List.countP_cons]
  simp

theorem countSrc_pos {es : List (Nat × Nat)} {i : Nat} :
    0 < countSrc es i ↔ ∃ e ∈ es, e.1 = i := by
  unfold countSrc
  rw [List.countP_pos_iff]
  simp

theorem find?_src_eq_none {es : List (Nat × Nat)} {i : Nat} (h : countSrc es i = 0) :
    es.find? (fun e => e.1 == i) = none := by
  rw [List.find?_eq_none]
  intro e he hpe
  have hpos : 0 < countSrc es i := countSrc_pos.mpr ⟨e, he, by simpa using hpe⟩
  omega

theorem find?_src_fst {es : List (Nat × Nat)} {i : Nat} {e : Nat × Nat}
    (h : es.find? (fun x => x.1 == i) = some e) : e.1 = i := by
  have := List.find?_some h
  simpa using this

theorem find?_src_mem {es : List (Nat × Nat)} {i : Nat} {e : Nat × Nat}
    (h : es.find? (fun x => x.1 == i) = some e) : e ∈ es :=
  List.mem_of_find?_eq_some h

theorem find?_src_isSome {es : List (Nat × Nat)} {i : Nat} (h : 0 < countSrc es i) :
    (es.find? (fun x => x.1 == i)).isSome := by
  rw [List.find?_isSome]
  obtain ⟨e, he, hfst⟩ := countSrc_pos.mp h
  exact ⟨e, he, by simpa using hfst⟩

theorem find?_src_of_countOne {es : List (Nat × Nat)} {i q : Nat}
    (h1 : countSrc es i = 1) (h2 : (i, q) ∈ es) :
    es.find? (fun x => x.1 == i) = some (i, q) := by
  induction es with
  | nil => cases h2
  | cons e es ih =>
    by_cases he : e.1 = i
    · rw [List.find?_cons_of_pos _ (by simpa using he)]
      rw [countSrc_cons, if_pos he] at h1
      have hz : countSrc es i = 0 := by omega
      rcases List.mem_cons.mp h2 with h | h
      · rw [← h]
      · have hp : 0 < countSrc es i := countSrc_pos.mpr ⟨(i, q), h, rfl⟩
        omega
    · rw [List.find?_cons_of_neg _ (by simpa using he)]
      rw [countSrc_cons, if_neg he] at h1
      rcases List.mem_cons.mp h2 with h | h
      · exact absurd (congrArg Prod.fst h.symm) he
      · exact ih (by omega) h

theorem eraseFirstSrc_countSrc_self (es : List (Nat × Nat)) (i : Nat) :
    countSrc (eraseFirstSrc es i) i = countSrc es i - 1 := by
  induction es with
  | nil => simp [eraseFirstSrc, countSrc]
  | cons e es ih =>
    by_cases h : e.1 = i
    · simp [eraseFirstSrc, h, countSrc_cons]
    · simp only [eraseFirstSrc, beq_iff_eq, if_neg h, countSrc_cons, ih]
      omega

theorem eraseFirstSrc_countSrc_ne (es : List (Nat × Nat)) {i j : Nat} (hij : j ≠ i) :
    countSrc (eraseFirstSrc es i) j = countSrc es j := by
  induction es with
  | nil => simp [eraseFirstSrc]
  | cons e es ih =>
    by_cases h : e.1 = i
    · simp only [eraseFirstSrc, beq_iff_eq, if_pos h, countSrc_cons]
      rw [if_neg (by omega)]
      omega
    · simp only [eraseFirstSrc, beq_iff_eq, if_neg h, countSrc_cons, ih]

theorem eraseFirstSrc_find?_ne (es : List (Nat × Nat)) {i j : Nat} (hij : j ≠ i) :
    (eraseFirstSrc es i).find? (fun x => x.1 == j) = es.find? (fun x => x.1 == j) := by
  induction es with
  | nil => simp [eraseFirstSrc]
  | cons e es ih =>
    by_cases h : e.1 = i
    · simp only [eraseFirstSrc, beq_iff_eq, if_pos h]
      rw [List.find?_cons_of_neg _ (by simp; omega)]
    · simp only [eraseFirstSrc, beq_iff_eq, if_neg h]
      by_cases hj : e.1 = j
      · rw [List.find?_cons_of_pos _ (by simpa using hj),
          List.find?_cons_of_pos _ (by simpa using hj)]
      · rw [List.find?_cons_of_neg _ (by simpa using hj),
          List.find?_cons_of_neg _ (by simpa using hj), ih]

theorem eraseFirstSrc_subset {es : List (Nat × Nat)} {i : Nat} :
    ∀ e ∈ eraseFirstSrc es i, e ∈ es := by
  induction es with
  | nil => simp [eraseFirstSrc]
  | cons e es ih =>
    by_cases h : e.1 = i
    · simp only [eraseFirstSrc, beq_iff_eq, if_pos h]
      intro x hx
      exact List.mem_cons_of_mem _ hx
    · simp only [eraseFirstSrc, beq_iff_eq, if_neg h]
      intro x hx
      rcases List.mem_cons.mp hx with h' | h'
      · exact h' ▸ List.mem_cons_self _ _
      · exact List.mem_cons_of_mem _ (ih x h')

theorem mem_eraseFirstSrc {es : List (Nat × Nat)} {i : Nat} {e : Nat × Nat}
    (he : e ∈ es) (hne : e.1 ≠ i) : e ∈ eraseFirstSrc es i := by
  induction es with
  | nil => cases he
  | cons e' es ih =>
    by_cases h : e'.1 = i
    · simp only [eraseFirstSrc, beq_iff_eq, if_pos h]
      rcases List.mem_cons.mp he with h' | h'
      · exact absurd (h' ▸ h) hne
      · exact h'
    · simp only [eraseFirstSrc, beq_iff_eq, if_neg h]
      rcases List.mem_cons.mp he with h' | h'
      · exact h' ▸ List.mem_cons_self _ _
      · exact List.mem_cons_of_mem _ (ih h')

theorem parentOf_mem {st : Store} {i p : Nat} (h : parentOf st i = some p) :
    (i, p) ∈ st.edges := by
  unfold parentOf at h
  cases hf : st.edges.find? (fun x => x.1 == i) with
  | none => rw [hf] at h; cases h
  | some e =>
    rw [hf] at h
    have h1 : e.1 = i := find?_src_fst hf
    have h2 : e.2 = p := by simpa using h
    have := find?_src_mem hf
    rwa [show e = (i, p) from Prod.ext h1 h2] at this

theorem parentOf_of_countOne {st : Store} {i q : Nat}
    (h1 : countSrc st.edges i = 1) (h2 : (i, q) ∈ st.edges) :
    parentOf st i = some q := by
  unfold parentOf
  rw [find?_src_of_countOne h1 h2]
  rfl

theorem parentOf_isSome {st : Store} {i : Nat} (h : 0 < countSrc st.edges i) :
    (parentOf st i).isSome := by
  unfold parentOf
  cases hf : st.edges.find? (fun x => x.1 == i) with
  | none =>
    have := find?_src_isSome h
    rw [hf] at this
    cases this
  | some e => simp

theorem isRoot_iff_mem {st : Store} {i : Nat} :
    isRoot st i = true ↔ (i, i) ∈ st.edges := by
  unfold isRoot
  exact List.elem_iff

theorem isRoot_iff_parent_self {st : Store} {i : Nat} (h1 : countSrc st.edges i = 1) :
    isRoot st i = true ↔ parentOf st i = some i := by
  constructor
  · intro h
    exact parentOf_of_countOne h1 (isRoot_iff_mem.mp h)
  · intro h
    exact isRoot_iff_mem.mpr (parentOf_mem h)

/-- Everything `setParent` guarantees when it succeeds. -/
structure SetParentSpec (st : Store) (i p : Nat) (st' : Store) : Prop where
  nodes_eq : st'.nodes = st.nodes
  nextId_eq : st'.nextId = st.nextId
  parent_self : countSrc st.edges i = 1 → parentOf st' i = some p
  parent_other : ∀ j, j ≠ i → parentOf st' j = parentOf st j
  count_self : countSrc st'.edges i = countSrc st.edges i
  count_other : ∀ j, j ≠ i → countSrc st'.edges j = countSrc st.edges j
  mem_other : ∀ e : Nat × Nat, e.1 ≠ i → (e ∈ st'.edges ↔ e ∈ st.edges)
  mem_new : (i, p) ∈ st'.edges
  edges_sub : ∀ e ∈ st'.edges, e ∈ st.edges ∨ e = (i, p)

theorem setParent_spec {st : Store} {i p : Nat} {st' : Store}
    (h : setParent st i p = some st') : SetParentSpec st i p st' := by
  have hsome : (st.edges.find? (fun e => e.1 == i)).isSome := by
    unfold setParent at h
    cases hf : st.edges.find? (fun e => e.1 == i) with
    | none => rw [hf] at h; cases h
    | some e => simp
  have hpos : 0 < countSrc st.edges i := by
    rw [List.find?_isSome] at hsome
    obtain ⟨e, he, hpe⟩ := hsome
    exact countSrc_pos.mpr ⟨e, he, by simpa using hpe⟩
  have hedges : st'.edges = eraseFirstSrc st.edges i ++ [(i, p)] ∧
      st'.nodes = st.nodes ∧ st'.nextId = st.nextId := by
    unfold setParent at h
    cases hf : st.edges.find? (fun e => e.1 == i) with
    | none => rw [hf] at h; cases h
    | some e =>
      rw [hf] at h
      cases h
      exact ⟨rfl, rfl, rfl⟩
  obtain ⟨he, hn, hx⟩ := hedges
  refine ⟨hn, hx, ?_, ?_, ?_, ?_, ?_, ?_, ?_⟩
  · intro hone
    have hz : countSrc (eraseFirstSrc st.edges i) i = 0 := by
      rw [eraseFirstSrc_countSrc_self]; omega
    unfold parentOf
    rw [he, List.find?_append, find?_src_eq_none hz]
    simp
  · intro j hj
    unfold parentOf
    rw [he, List.find?_append]
    have hnone : List.find? (fun x => x.1 == j) [(i, p)] = none := by
      rw [List.find?_eq_none]
      intro x hx
      rw [List.mem_singleton] at hx
      subst hx
      simp
      omega
    rw [hnone, Option.or_none, eraseFirstSrc_find?_ne _ hj]
  · have h2 := eraseFirstSrc_countSrc_self st.edges i
    have h1 : countSrc [(i, p)] i = 1 := by
      unfold countSrc
      simp [List.countP_cons]
    have h3 : countSrc st'.edges i
        = countSrc (eraseFirstSrc st.edges i) i + countSrc [(i, p)] i := by
      rw [he]; unfold countSrc; rw [List.countP_append]
    omega
  · intro j hj
    have h2 := eraseFirstSrc_countSrc_ne st.edges hj
    have h1 : countSrc [(i, p)] j = 0 := by
      unfold countSrc
      rw [List.countP_eq_zero]
      intro a ha
      rw [List.mem_singleton] at ha
      subst ha
      simp
      omega
    have h3 : countSrc st'.edges j
        = countSrc (eraseFirstSrc st.edges i) j + countSrc [(i, p)] j := by
      rw [he]; unfold countSrc; rw [List.countP_append]
    omega
  · intro e hne
    rw [he, List.mem_append]
    constructor
    · rintro (h' | h')
      · exact eraseFirstSrc_subset _ h'
      · simp at h'
        exact absurd (congrArg Prod.fst h') (by simpa using hne)
    · intro h'
      exact Or.inl (mem_eraseFirstSrc h' hne)
  · rw [he, List.mem_append]
    exact Or.inr (List.mem_singleton.mpr rfl)
  · intro e hmem
    rw [he, List.mem_append] at hmem
    rcases hmem with h' | h'
    · exact Or.inl (eraseFirstSrc_subset _ h')
    · exact Or.inr (List.mem_singleton.mp h')

theorem setParent_isSome {st : Store} {i : Nat} (p : Nat)
    (h : 0 < countSrc st.edges i) : (setParent st i p).isSome := by
  unfold setParent
  cases hf : st.edges.find? (fun e => e.1 == i) with
  | none =>
    have := find?_src_isSome h
    rw [hf] at this
    cases this
  | some e => simp

theorem setParent_mem_src {st : Store} {i p : Nat} {st' : Store}
    (h : setParent st i p = some st') (hone : countSrc st.edges i = 1) :
    ∀ q, (i, q) ∈ st'.edges → q = p := by
  intro q hq
  have sp := setParent_spec h
  have hone' : countSrc st'.edges i = 1 := by rw [sp.count_self]; exact hone
  have := parentOf_of_countOne hone' hq
  rw [sp.parent_self hone] at this
  simpa using this.symm


/-! ## Lemmas about the fuelled traversals -/

theorem rootOfAux_eq_none {st : Store} {i : Nat} (hp : parentOf st i = none) (f : Nat) :
    rootOfAux st (f + 1) i = none := by
  show (match parentOf st i with
    | none => none
    | some p => if p == i then some i else rootOfAux st f p) = none
  rw [hp]

theorem rootOfAux_self {st : Store} {i : Nat} (h : parentOf st i = some i) (f : Nat) :
    rootOfAux st (f + 1) i = some i := by
  show (match parentOf st i with
    | none => none
    | some p => if p == i then some i else rootOfAux st f p) = some i
  rw [h]
  show (if i == i then some i else rootOfAux st f i) = some i
  rw [if_pos (by simp)]

theorem rootOfAux_step {st : Store} {i p : Nat} (hp : parentOf st i = some p)
    (hne : p ≠ i) (f : Nat) : rootOfAux st (f + 1) i = rootOfAux st f p := by
  show (match parentOf st i with
    | none => none
    | some q => if q == i then some i else rootOfAux st f q) = rootOfAux st f p
  rw [hp]
  show (if p == i then some i else rootOfAux st f p) = rootOfAux st f p
  rw [if_neg (by simpa using hne)]

theorem chainLenAux_eq_none {st : Store} {i : Nat} (hp : parentOf st i = none) (f : Nat) :
    chainLenAux st (f + 1) i = none := by
  show (match parentOf st i with
    | none => none
    | some p => if p == i then some 0 else (chainLenAux st f p).map (· + 1)) = none
  rw [hp]

theorem chainLenAux_self {st : Store} {i : Nat} (h : parentOf st i = some i) (f : Nat) :
    chainLenAux st (f + 1) i = some 0 := by
  show (match parentOf st i with
    | none => none
    | some p => if p == i then some 0 else (chainLenAux st f p).map (· + 1)) = some 0
  rw [h]
  show (if i == i then some 0 else (chainLenAux st f i).map (· + 1)) = some 0
  rw [if_pos (by simp)]

theorem chainLenAux_step {st : Store} {i p : Nat} (hp : parentOf st i = some p)
    (hne : p ≠ i) (f : Nat) :
    chainLenAux st (f + 1) i = (chainLenAux st f p).map (· + 1) := by
  show (match parentOf st i with
    | none => none
    | some q => if q == i then some 0 else (chainLenAux st f q).map (· + 1))
      = (chainLenAux st f p).map (· + 1)
  rw [hp]
  show (if p == i then some 0 else (chainLenAux st f p).map (· + 1))
      = (chainLenAux st f p).map (· + 1)
  rw [if_neg (by simpa using hne)]

theorem reachesAux_eq_none {st : Store} {i : Nat} (hp : parentOf st i = none)
    (f r : Nat) : reachesAux st (f + 1) i r = false := by
  show (match parentOf st i with
    | none => false
    | some p => p == r || reachesAux st f p r) = false
  rw [hp]

theorem reachesAux_eq_step {st : Store} {i p : Nat} (hp : parentOf st i = some p)
    (f r : Nat) : reachesAux st (f + 1) i r = (p == r || reachesAux st f p r) := by
  show (match parentOf st i with
    | none => false
    | some q => q == r || reachesAux st f q r) = (p == r || reachesAux st f p r)
  rw [hp]

theorem rootOfAux_self_pos {st : Store} {i : Nat} (h : parentOf st i = some i)
    {f : Nat} (hf : 0 < f) : rootOfAux st f i = some i := by
  cases f with
  | zero => omega
  | succ f => exact rootOfAux_self h f

theorem chainLenAux_self_pos {st : Store} {i : Nat} (h : parentOf st i = some i)
    {f : Nat} (hf : 0 < f) : chainLenAux st f i = some 0 := by
  cases f with
  | zero => omega
  | succ f => exact chainLenAux_self h f

theorem rootOfAux_step_pred {st : Store} {i p : Nat} (hp : parentOf st i = some p)
    (hne : p ≠ i) {f : Nat} (hf : 0 < f) :
    rootOfAux st f i = rootOfAux st (f - 1) p := by
  cases f with
  | zero => omega
  | succ f => simpa using rootOfAux_step hp hne f

theorem chainLenAux_step_pred {st : Store} {i p : Nat} (hp : parentOf st i = some p)
    (hne : p ≠ i) {f : Nat} (hf : 0 < f) :
    chainLenAux st f i = (chainLenAux st (f - 1) p).map (· + 1) := by
  cases f with
  | zero => omega
  | succ f => simpa using chainLenAux_step hp hne f

theorem rootOfAux_mono {st : Store} :
    ∀ {f f' i r : Nat}, f ≤ f' → rootOfAux st f i = some r → rootOfAux st f' i = some r := by
  intro f
  induction f with
  | zero => intro f' i r _ h; cases h
  | succ f ih =>
    intro f' i r hle h
    cases f' with
    | zero => omega
    | succ f'' =>
      cases hp : parentOf st i with
      | none => rw [rootOfAux_eq_none hp] at h; cases h
      | some p =>
        by_cases hpi : p = i
        · subst hpi
          rw [rootOfAux_self hp] at h
          rw [rootOfAux_self hp]
          exact h
        · rw [rootOfAux_step hp hpi] at h
          rw [rootOfAux_step hp hpi]
          exact ih (by omega) h

theorem chainLenAux_mono {st : Store} :
    ∀ {f f' i s : Nat}, f ≤ f' → chainLenAux st f i = some s → chainLenAux st f' i = some s := by
  intro f
  induction f with
  | zero => intro f' i s _ h; cases h
  | succ f ih =>
    intro f' i s hle h
    cases f' with
    | zero => omega
    | succ f'' =>
      cases hp : parentOf st i with
      | none => rw [chainLenAux_eq_none hp] at h; cases h
      | some p =>
        by_cases hpi : p = i
        · subst hpi
          rw [chainLenAux_self hp] at h
          rw [chainLenAux_self hp]
          exact h
        · rw [chainLenAux_step hp hpi] at h
          rw [chainLenAux_step hp hpi]
          cases hc : chainLenAux st f p with
          | none => rw [hc] at h; cases h
          | some s' =>
            rw [hc] at h
            rw [ih (by omega) hc]
            exact h

theorem rootOfAux_parent_self {st : Store} :
    ∀ {f i r : Nat}, rootOfAux st f i = some r → parentOf st r = some r := by
  intro f
  induction f with
  | zero => intro i r h; cases h
  | succ f ih =>
    intro i r h
    cases hp : parentOf st i with
    | none => rw [rootOfAux_eq_none hp] at h; cases h
    | some p =>
      by_cases hpi : p = i
      · subst hpi
        rw [rootOfAux_self hp] at h
        cases h
        exact hp
      · rw [rootOfAux_step hp hpi] at h
        exact ih h

theorem chainLenAux_isSome {st : Store} :
    ∀ {f i : Nat}, (rootOfAux st f i).isSome → (chainLenAux st f i).isSome := by
  intro f
  induction f with
  | zero => intro i h; cases h
  | succ f ih =>
    intro i h
    cases hp : parentOf st i with
    | none => rw [rootOfAux_eq_none hp] at h; cases h
    | some p =>
      by_cases hpi : p = i
      · subst hpi
        rw [chainLenAux_self hp]
        simp
      · rw [rootOfAux_step hp hpi] at h
        rw [chainLenAux_step hp hpi]
        have := ih h
        cases hc : chainLenAux st f p with
        | none => rw [hc] at this; cases this
        | some s => simp [hc]

theorem rootOf_parent {st : Store} {j p ρ : Nat} (h1 : rootOf st j = some ρ)
    (h2 : parentOf st j = some p) : rootOf st p = some ρ := by
  unfold rootOf fuelOf at h1 ⊢
  by_cases hpj : p = j
  · subst hpj
    exact h1
  · rw [rootOfAux_step h2 hpj] at h1
    exact rootOfAux_mono (by omega) h1

theorem rootOf_self {st : Store} {i : Nat} (h : parentOf st i = some i) :
    rootOf st i = some i :=
  rootOfAux_self h _

theorem rootOfAux_congr_on (st st' : Store) (R : Nat → Prop)
    (hclosed : ∀ j p, R j → parentOf st j = some p → R p)
    (hagree : ∀ j, R j → parentOf st' j = parentOf st j) :
    ∀ f i, R i → rootOfAux st' f i = rootOfAux st f i := by
  intro f
  induction f with
  | zero => intro i _; rfl
  | succ f ih =>
    intro i hR
    cases hp : parentOf st i with
    | none =>
      rw [rootOfAux_eq_none hp, rootOfAux_eq_none (by rw [hagree i hR]; exact hp)]
    | some p =>
      have hp' : parentOf st' i = some p := by rw [hagree i hR]; exact hp
      by_cases hpi : p = i
      · subst hpi
        rw [rootOfAux_self hp, rootOfAux_self hp']
      · rw [rootOfAux_step hp hpi, rootOfAux_step hp' hpi]
        exact ih p (hclosed i p hR hp)

theorem chainLenAux_congr_on (st st' : Store) (R : Nat → Prop)
    (hclosed : ∀ j p, R j → parentOf st j = some p → R p)
    (hagree : ∀ j, R j → parentOf st' j = parentOf st j) :
    ∀ f i, R i → chainLenAux st' f i = chainLenAux st f i := by
  intro f
  induction f with
  | zero => intro i _; rfl
  | succ f ih =>
    intro i hR
    cases hp : parentOf st i with
    | none =>
      rw [chainLenAux_eq_none hp, chainLenAux_eq_none (by rw [hagree i hR]; exact hp)]
    | some p =>
      have hp' : parentOf st' i = some p := by rw [hagree i hR]; exact hp
      by_cases hpi : p = i
      · subst hpi
        rw [chainLenAux_self hp, chainLenAux_self hp']
      · rw [chainLenAux_step hp hpi, chainLenAux_step hp' hpi]
        rw [ih p (hclosed i p hR hp)]

/-! ## Lemmas about `Reaches` and `reachesAux` -/

theorem reaches_of_reachesAux {st : Store} :
    ∀ {f i r : Nat}, reachesAux st f i r = true → Reaches st i r := by
  intro f
  induction f with
  | zero => intro i r h; cases h
  | succ f ih =>
    intro i r h
    cases hp : parentOf st i with
    | none => rw [reachesAux_eq_none hp] at h; cases h
    | some p =>
      rw [reachesAux_eq_step hp] at h
      rcases Bool.or_eq_true_iff.mp h with h' | h'
      · have : p = r := by simpa using h'
        exact Reaches.single (this ▸ hp)
      · exact Reaches.head hp (ih h')

theorem reaches_parent_self {st : Store} {i t : Nat} (h : Reaches st i t)
    (hself : parentOf st i = some i) : t = i := by
  induction h with
  | single hp => rw [hp] at hself; exact Option.some.inj hself
  | head hp hr ih =>
    rename_i i' j k
    rw [hp] at hself
    have hji : j = i' := Option.some.inj hself
    subst hji
    exact ih hp

theorem reachesAux_of_reaches {st : Store} :
    ∀ {f i t : Nat}, (rootOfAux st f i).isSome → Reaches st i t → reachesAux st f i t = true := by
  intro f
  induction f with
  | zero => intro i t h _; cases h
  | succ f ih =>
    intro i t hsome hr
    cases hp : parentOf st i with
    | none => rw [rootOfAux_eq_none hp] at hsome; cases hsome
    | some p =>
      rw [reachesAux_eq_step hp]
      by_cases hpi : p = i
      · have ht : t = i := reaches_parent_self hr (hpi ▸ hp)
        subst ht
        subst hpi
        simp
      · rw [rootOfAux_step hp hpi] at hsome
        cases hr with
        | single hp' =>
          have : t = p := by rw [hp] at hp'; exact (Option.some.inj hp').symm
          subst this
          simp
        | head hp' hr' =>
          rename_i j
          have : j = p := by rw [hp] at hp'; exact (Option.some.inj hp').symm
          subst this
          rw [ih hsome hr']
          simp

theorem root_unique_of_reaches {st : Store} :
    ∀ {f i r t : Nat}, rootOfAux st f i = some r → Reaches st i t →
      parentOf st t = some t → t = r := by
  intro f
  induction f with
  | zero => intro i r t h; cases h
  | succ f ih =>
    intro i r t h hr hts
    cases hp : parentOf st i with
    | none => rw [rootOfAux_eq_none hp] at h; cases h
    | some p =>
      by_cases hpi : p = i
      · subst hpi
        rw [rootOfAux_self hp] at h
        cases h
        exact reaches_parent_self hr hp
      · rw [rootOfAux_step hp hpi] at h
        cases hr with
        | single hp' =>
          have htp : t = p := by rw [hp] at hp'; exact (Option.some.inj hp').symm
          subst htp
          cases f with
          | zero => cases h
          | succ f' =>
            rw [rootOfAux_self hts f'] at h
            exact Option.some.inj h
        | head hp' hr' =>
          rename_i j
          have : j = p := by rw [hp] at hp'; exact (Option.some.inj hp').symm
          subst this
          exact ih h hr' hts

theorem rootOfAux_reaches {st : Store} :
    ∀ {f i r : Nat}, rootOfAux st f i = some r → i = r ∨ Reaches st i r := by
  intro f
  induction f with
  | zero => intro i r h; cases h
  | succ f ih =>
    intro i r h
    cases hp : parentOf st i with
    | none => rw [rootOfAux_eq_none hp] at h; cases h
    | some p =>
      by_cases hpi : p = i
      · subst hpi
        rw [rootOfAux_self hp] at h
        exact Or.inl (Option.some.inj h)
      · rw [rootOfAux_step hp hpi] at h
        rcases ih h with h' | h'
        · exact Or.inr (Reaches.single (h' ▸ hp))
        · exact Or.inr (Reaches.head hp h')

theorem reachesAux_self_loop {st : Store} {j r : Nat} (hj : parentOf st j = some j)
    (hne : j ≠ r) : ∀ f, reachesAux st f j r = false := by
  intro f
  induction f with
  | zero => rfl
  | succ f ih =>
    rw [reachesAux_eq_step hj, ih]
    simp
    omega

/-- Climbing lemma for reparenting a root `r` under another root `h`: every
node whose chain in `st` ends at `r` after `s` hops reaches `h` in `st'`
after `s + 1` hops. -/
theorem reparent_climb {st st' : Store} {r h : Nat}
    (hpr' : parentOf st' r = some h)
    (hph' : parentOf st' h = some h)
    (hrh : h ≠ r)
    (hagree : ∀ j, j ≠ r → parentOf st' j = parentOf st j)
    (hrs : parentOf st r = some r) :
    ∀ s, ∀ {f i : Nat}, chainLenAux st f i = some s → rootOfAux st f i = some r →
      rootOfAux st' (s + 2) i = some h ∧ chainLenAux st' (s + 2) i = some (s + 1) := by
  intro s
  induction s with
  | zero =>
    intro f i hc hr'
    cases f with
    | zero => cases hc
    | succ f =>
      cases hp : parentOf st i with
      | none => rw [chainLenAux_eq_none hp] at hc; cases hc
      | some p =>
        by_cases hpi : p = i
        · rw [hpi] at hp
          rw [rootOfAux_self hp] at hr'
          have hir : i = r := Option.some.inj hr'
          subst hir
          constructor
          · rw [rootOfAux_step_pred hpr' hrh (by omega)]
            exact rootOfAux_self_pos hph' (by omega)
          · rw [chainLenAux_step_pred hpr' hrh (by omega),
              chainLenAux_self_pos hph' (by omega)]
            rfl
        · rw [chainLenAux_step hp hpi] at hc
          cases hcp : chainLenAux st f p with
          | none => rw [hcp] at hc; cases hc
          | some s' => rw [hcp] at hc; simp at hc
  | succ s ih =>
    intro f i hc hr'
    cases f with
    | zero => cases hc
    | succ f =>
      cases hp : parentOf st i with
      | none => rw [chainLenAux_eq_none hp] at hc; cases hc
      | some p =>
        by_cases hpi : p = i
        · subst hpi
          rw [chainLenAux_self hp] at hc
          cases hc
        · rw [chainLenAux_step hp hpi] at hc
          cases hcp : chainLenAux st f p with
          | none => rw [hcp] at hc; cases hc
          | some s' =>
            rw [hcp] at hc
            have hs' : s' = s := by simpa using hc
            rw [hs'] at hcp
            rw [rootOfAux_step hp hpi] at hr'
            have hir : i ≠ r := by
              intro hir
              subst hir
              rw [hrs] at hp
              exact hpi (Option.some.inj hp).symm
            obtain ⟨ih1, ih2⟩ := ih hcp hr'
            have hpi' : parentOf st' i = some p := by rw [hagree i hir]; exact hp
            constructor
            · rw [rootOfAux_step_pred hpi' hpi (by omega)]
              have harith : s + 1 + 2 - 1 = s + 2 := by omega
              rw [harith]
              exact ih1
            · rw [chainLenAux_step_pred hpi' hpi (by omega)]
              have harith : s + 1 + 2 - 1 = s + 2 := by omega
              rw [harith, ih2]
              rfl

/-! ## Helper lemmas: nodes, counting, classes -/

theorem bool_eq_of_iff {a b : Bool} (h : a = true ↔ b = true) : a = b := by
  cases a <;> cases b <;> simp_all

theorem getNode_id {st : Store} {i : Nat} {x : Node} (h : getNode st i = some x) :
    x.id = i := by
  have := List.find?_some h
  simpa using this

theorem getNode_mem {st : Store} {i : Nat} {x : Node} (h : getNode st i = some x) :
    x ∈ st.nodes :=
  List.mem_of_find?_eq_some h

theorem lookup_mem {st : Store} {t n : String} {x : Node} (h : lookup st t n = some x) :
    x ∈ st.nodes :=
  List.mem_of_find?_eq_some h

theorem lookup_key {st : Store} {t n : String} {x : Node} (h : lookup st t n = some x) :
    x.ty = t ∧ x.nm = n := by
  have := List.find?_some h
  simpa using this

theorem getNode_of_mem {st : Store} (hnd : (st.nodes.map Node.id).Nodup)
    {x : Node} (hx : x ∈ st.nodes) : getNode st x.id = some x := by
  cases hg : getNode st x.id with
  | none =>
    rw [getNode, List.find?_eq_none] at hg
    exact absurd (by simp : (x.id == x.id) = true) (hg x hx)
  | some y =>
    have hy : y ∈ st.nodes := getNode_mem hg
    have hid : y.id = x.id := getNode_id hg
    have : y = x := List.inj_on_of_nodup_map hnd hy hx hid
    rw [this]

theorem node_of_parentOf {st : Store} (hI : Inv st) {i p : Nat}
    (h : parentOf st i = some p) : ∃ x ∈ st.nodes, x.id = i :=
  hI.edgeSrc _ (parentOf_mem h)

theorem rootOfAux_parent_isSome {st : Store} {f i r : Nat}
    (h : rootOfAux st (f + 1) i = some r) : (parentOf st i).isSome := by
  cases hp : parentOf st i with
  | none => rw [rootOfAux_eq_none hp] at h; cases h
  | some p => simp

theorem depthOkB_iff {st : Store} {x : Node} : depthOkB st x = true ↔
    ∃ ρ s, rootOf st x.id = some ρ ∧ chainLen st x.id = some s ∧ s < classSize st ρ := by
  unfold depthOkB
  cases h1 : rootOf st x.id with
  | none => simp [h1]
  | some ρ =>
    cases h2 : chainLen st x.id with
    | none => simp [h1, h2]
    | some s => simp [h1, h2]

theorem rooted_of_inv {st : Store} (hI : Inv st) {x : Node} (hx : x ∈ st.nodes) :
    ∃ ρ s, rootOf st x.id = some ρ ∧ chainLen st x.id = some s ∧ s < classSize st ρ :=
  depthOkB_iff.mp (hI.depth x hx)

theorem countP_or_disj {α : Type} {l : List α} {p q : α → Bool}
    (hdisj : ∀ a ∈ l, ¬(p a = true ∧ q a = true)) :
    l.countP (fun a => p a || q a) = l.countP p + l.countP q := by
  induction l with
  | nil => simp
  | cons a l ih =>
    have ih' := ih (fun a ha => hdisj a (List.mem_cons_of_mem _ ha))
    have hda := hdisj a (List.mem_cons_self _ _)
    rw [List.countP_cons, List.countP_cons, List.countP_cons, ih']
    cases hp : p a <;> cases hq : q a <;> simp_all <;> omega

theorem classSize_le_length (st : Store) (ρ : Nat) :
    classSize st ρ ≤ st.nodes.length :=
  List.countP_le_length _

theorem classSize_pos {st : Store} {x : Node} (hx : x ∈ st.nodes) {ρ : Nat}
    (hr : rootOf st x.id = some ρ) : 0 < classSize st ρ := by
  unfold classSize
  rw [List.countP_pos_iff]
  exact ⟨x, hx, by simp [hr]⟩

/-- Two disjoint classes cannot outnumber the store. -/
theorem classSize_add_le {st : Store} {r h : Nat} (hrh : h ≠ r) :
    classSize st r + classSize st h ≤ st.nodes.length := by
  have hd : ∀ a ∈ st.nodes,
      ¬((rootOf st a.id == some r) = true ∧ (rootOf st a.id == some h) = true) := by
    intro a _ ⟨h1, h2⟩
    rw [beq_iff_eq] at h1 h2
    rw [h1] at h2
    exact hrh (Option.some.inj h2).symm
  have := countP_or_disj hd
  unfold classSize
  rw [← this]
  exact List.countP_le_length _

/-! ## `compress`: effect of the compression loop -/

structure CompressSpec (st : Store) (r : Nat) (as : List Node) (st' : Store) : Prop where
  nodes_eq : st'.nodes = st.nodes
  nextId_eq : st'.nextId = st.nextId
  count_all : ∀ j, countSrc st'.edges j = countSrc st.edges j
  parent_mem : ∀ a ∈ as, parentOf st' a.id = some r
  parent_other : ∀ j, j ∉ as.map Node.id → parentOf st' j = parentOf st j
  mem_other : ∀ e : Nat × Nat, e.1 ∉ as.map Node.id → (e ∈ st'.edges ↔ e ∈ st.edges)
  edges_sub : ∀ e ∈ st'.edges, e ∈ st.edges ∨ (e.1 ∈ as.map Node.id ∧ e.2 = r)

theorem compress_total (r : Nat) : ∀ (as : List Node) (st : Store),
    (∀ a ∈ as, countSrc st.edges a.id = 1) →
    ∃ st', compress st r as = some st' ∧ CompressSpec st r as st' := by
  intro as
  induction as with
  | nil =>
    intro st _
    exact ⟨st, rfl, ⟨rfl, rfl, fun _ => rfl, by simp, fun _ _ => rfl,
      fun _ _ => Iff.rfl, fun e he => Or.inl he⟩⟩
  | cons a as' ih =>
    intro st hcnt
    have hone : countSrc st.edges a.id = 1 := hcnt a (List.mem_cons_self _ _)
    have hsp : (setParent st a.id r).isSome := setParent_isSome r (by omega)
    cases hsp1 : setParent st a.id r with
    | none => rw [hsp1] at hsp; cases hsp
    | some st1 =>
      have sp := setParent_spec hsp1
      have hcnt1 : ∀ j, countSrc st1.edges j = countSrc st.edges j := by
        intro j
        by_cases hj : j = a.id
        · subst hj; exact sp.count_self
        · exact sp.count_other j hj
      obtain ⟨st'', hc, spec⟩ := ih st1 (fun a' ha' => by
        rw [hcnt1]; exact hcnt a' (List.mem_cons_of_mem _ ha'))
      refine ⟨st'', ?_, ?_⟩
      · show compress st r (a :: as') = some st''
        unfold compress
        rw [hsp1]
        exact hc
      · refine ⟨?_, ?_, ?_, ?_, ?_, ?_, ?_⟩
        · rw [spec.nodes_eq, sp.nodes_eq]
        · rw [spec.nextId_eq, sp.nextId_eq]
        · intro j
          rw [spec.count_all j, hcnt1 j]
        · intro x hx
          rcases List.mem_cons.mp hx with hx | hx
          · subst hx
            by_cases hmem : x.id ∈ as'.map Node.id
            · obtain ⟨a', ha', hid⟩ := List.mem_map.mp hmem
              rw [← hid]
              exact spec.parent_mem a' ha'
            · rw [spec.parent_other _ hmem]
              exact sp.parent_self hone
          · exact spec.parent_mem x hx
        · intro j hj
          rw [List.map_cons, List.mem_cons] at hj
          push_neg at hj
          rw [spec.parent_other j hj.2, sp.parent_other j hj.1]
        · intro e he
          rw [List.map_cons, List.mem_cons] at he
          push_neg at he
          rw [spec.mem_other e he.2, sp.mem_other e he.1]
        · intro e he
          rcases spec.edges_sub e he with h' | h'
          · rcases sp.edges_sub e h' with h'' | h''
            · exact Or.inl h''
            · refine Or.inr ⟨?_, by rw [h'']⟩
              rw [h'']
              simp
          · refine Or.inr ⟨?_, h'.2⟩
            rw [List.map_cons, List.mem_cons]
            exact Or.inr h'.1

/-! ## `pushWeight`: persisting a weight change -/

theorem pushWeight_edges (st : Store) (i w : Nat) :
    (pushWeight st i w).edges = st.edges := rfl

theorem pushWeight_nextId (st : Store) (i w : Nat) :
    (pushWeight st i w).nextId = st.nextId := rfl

theorem pushWeight_parentOf (st : Store) (i w j : Nat) :
    parentOf (pushWeight st i w) j = parentOf st j := rfl

theorem pushWeight_isRoot (st : Store) (i w j : Nat) :
    isRoot (pushWeight st i w) j = isRoot st j := rfl

theorem pushWeight_map_id (st : Store) (i w : Nat) :
    (pushWeight st i w).nodes.map Node.id = st.nodes.map Node.id := by
  show (st.nodes.map _).map Node.id = st.nodes.map Node.id
  rw [List.map_map]
  apply List.map_congr_left
  intro a _
  by_cases h : a.id = i <;> simp [h]

theorem pushWeight_map_key (st : Store) (i w : Nat) :
    ((pushWeight st i w).nodes.map fun x => (x.ty, x.nm))
      = st.nodes.map fun x => (x.ty, x.nm) := by
  show ((st.nodes.map _).map _) = _
  rw [List.map_map]
  apply List.map_congr_left
  intro a _
  by_cases h : a.id = i <;> simp [h]

theorem pushWeight_fuel (st : Store) (i w : Nat) :
    fuelOf (pushWeight st i w) = fuelOf st := by
  unfold fuelOf pushWeight
  simp

theorem pushWeight_rootOfAux (st : Store) (i w : Nat) :
    ∀ f j, rootOfAux (pushWeight st i w) f j = rootOfAux st f j := by
  intro f j
  exact rootOfAux_congr_on st (pushWeight st i w) (fun _ => True)
    (fun _ _ _ _ => trivial) (fun _ _ => rfl) f j trivial

theorem pushWeight_chainLenAux (st : Store) (i w : Nat) :
    ∀ f j, chainLenAux (pushWeight st i w) f j = chainLenAux st f j := by
  intro f j
  exact chainLenAux_congr_on st (pushWeight st i w) (fun _ => True)
    (fun _ _ _ _ => trivial) (fun _ _ => rfl) f j trivial

theorem pushWeight_rootOf (st : Store) (i w j : Nat) :
    rootOf (pushWeight st i w) j = rootOf st j := by
  unfold rootOf
  rw [pushWeight_fuel, pushWeight_rootOfAux]

theorem pushWeight_chainLen (st : Store) (i w j : Nat) :
    chainLen (pushWeight st i w) j = chainLen st j := by
  unfold chainLen
  rw [pushWeight_fuel, pushWeight_chainLenAux]

theorem pushWeight_classSize (st : Store) (i w ρ : Nat) :
    classSize (pushWeight st i w) ρ = classSize st ρ := by
  unfold classSize
  show ((st.nodes.map _).countP _) = _
  rw [List.countP_map]
  apply List.countP_congr
  intro x _
  by_cases h : x.id = i <;> simp [h, pushWeight_rootOf]

theorem pushWeight_getNode_ne (st : Store) {i j : Nat} (w : Nat) (hne : j ≠ i) :
    getNode (pushWeight st i w) j = getNode st j := by
  unfold getNode
  show (st.nodes.map _).find? _ = _
  rw [List.find?_map]
  have hpred : ∀ x : Node,
      ((fun y : Node => y.id == j) ∘ fun x : Node =>
        if x.id == i then { x with weight := w } else x) x = (x.id == j) := by
    intro x
    by_cases h : x.id = i <;> simp [h]
  rw [funext hpred]
  cases hf : st.nodes.find? (fun x => x.id == j) with
  | none => rfl
  | some x =>
    have hx : x.id = j := by simpa using List.find?_some hf
    show some (if x.id == i then { x with weight := w } else x) = some x
    rw [if_neg (by simp; omega)]

theorem pushWeight_getNode_self (st : Store) {i : Nat} (w : Nat) {x : Node}
    (h : getNode st i = some x) :
    getNode (pushWeight st i w) i = some { x with weight := w } := by
  unfold getNode
  show (st.nodes.map _).find? _ = _
  rw [List.find?_map]
  have hpred : ∀ y : Node,
      ((fun y : Node => y.id == i) ∘ fun x : Node =>
        if x.id == i then { x with weight := w } else x) y = (y.id == i) := by
    intro y
    by_cases hy : y.id = i <;> simp [hy]
  rw [funext hpred]
  unfold getNode at h
  rw [h]
  have hx : x.id = i := by simpa using List.find?_some h
  simp [hx]

theorem pushWeight_inv {st : Store} (hI : Inv st) (i w : Nat) :
    Inv (pushWeight st i w) := by
  have hmem : ∀ y ∈ (pushWeight st i w).nodes, ∃ x ∈ st.nodes, y.id = x.id := by
    intro y hy
    show ∃ x ∈ st.nodes, y.id = x.id
    rcases List.mem_map.mp hy with ⟨x, hx, hxy⟩
    refine ⟨x, hx, ?_⟩
    subst hxy
    by_cases h : x.id = i <;> simp [h]
  have hmem' : ∀ x ∈ st.nodes, ∃ y ∈ (pushWeight st i w).nodes, y.id = x.id := by
    intro x hx
    refine ⟨if x.id == i then { x with weight := w } else x, List.mem_map_of_mem _ hx, ?_⟩
    by_cases h : x.id = i <;> simp [h]
  refine ⟨?_, ?_, ?_, ?_, ?_, ?_, ?_⟩
  · intro y hy
    obtain ⟨x, hx, hid⟩ := hmem y hy
    rw [pushWeight_nextId, hid]
    exact hI.idsLt x hx
  · intro e he
    obtain ⟨x, hx, hid⟩ := hI.edgeSrc e he
    obtain ⟨y, hy, hyx⟩ := hmem' x hx
    exact ⟨y, hy, by omega⟩
  · intro e he
    obtain ⟨x, hx, hid⟩ := hI.edgeTgt e he
    obtain ⟨y, hy, hyx⟩ := hmem' x hx
    exact ⟨y, hy, by omega⟩
  · rw [pushWeight_map_id]; exact hI.nodupIds
  · rw [pushWeight_map_key]; exact hI.nodupKeys
  · intro y hy
    obtain ⟨x, hx, hid⟩ := hmem y hy
    rw [pushWeight_edges, hid]
    exact hI.oneEdge x hx
  · intro y hy
    obtain ⟨x, hx, hid⟩ := hmem y hy
    rw [depthOkB_iff, hid]
    obtain ⟨ρ, s, h1, h2, h3⟩ := rooted_of_inv hI hx
    exact ⟨ρ, s, by rw [pushWeight_rootOf]; exact h1,
      by rw [pushWeight_chainLen]; exact h2, by rw [pushWeight_classSize]; exact h3⟩

/-! ## Reparenting one root under another (one `union` merge step) -/

structure ReparentSpec (st : Store) (r h : Nat) (st' : Store) : Prop where
  nodes_eq : st'.nodes = st.nodes
  nextId_eq : st'.nextId = st.nextId
  parent_r : parentOf st' r = some h
  parent_other : ∀ j, j ≠ r → parentOf st' j = parentOf st j
  count_all : ∀ j, countSrc st'.edges j = countSrc st.edges j
  rootOf_moved : ∀ i, rootOf st i = some r → rootOf st' i = some h
  rootOf_stable : ∀ i ρ, rootOf st i = some ρ → ρ ≠ r → rootOf st' i = some ρ
  chain_moved : ∀ i s, rootOf st i = some r → chainLen st i = some s →
    chainLen st' i = some (s + 1)
  chain_stable : ∀ i ρ, rootOf st i = some ρ → ρ ≠ r → chainLen st' i = chainLen st i
  isRoot_r : isRoot st' r = false
  isRoot_other : ∀ j, j ≠ r → isRoot st' j = isRoot st j

theorem reparent_spec {st st' : Store} {r h : Nat} (hI : Inv st)
    (hrs : parentOf st r = some r) (hhs : parentOf st h = some h) (hrh : h ≠ r)
    (hsp : setParent st r h = some st') : ReparentSpec st r h st' := by
  have sp := setParent_spec hsp
  obtain ⟨xr, hxr, hxrid⟩ := node_of_parentOf hI hrs
  obtain ⟨xh, hxh, hxhid⟩ := node_of_parentOf hI hhs
  have hone_r : countSrc st.edges r = 1 := by
    rw [← hxrid]; exact hI.oneEdge xr hxr
  have hpr' : parentOf st' r = some h := sp.parent_self hone_r
  have hph' : parentOf st' h = some h := by
    rw [sp.parent_other h hrh]; exact hhs
  have hfuel : fuelOf st' = fuelOf st := by
    unfold fuelOf; rw [sp.nodes_eq]
  have hcount : ∀ j, countSrc st'.edges j = countSrc st.edges j := by
    intro j
    by_cases hj : j = r
    · subst hj; exact sp.count_self
    · exact sp.count_other j hj
  have hsizeh : 0 < classSize st h := by
    refine classSize_pos hxh ?_
    rw [hxhid]
    exact rootOf_self hhs
  have hsizes := @classSize_add_le st _ _ hrh
  have moved : ∀ i, rootOf st i = some r →
      rootOf st' i = some h ∧
      (∀ s, chainLen st i = some s → chainLen st' i = some (s + 1)) := by
    intro i hri
    have hsome : (chainLen st i).isSome := by
      have h1 : (rootOfAux st (fuelOf st) i).isSome := by
        show (rootOf st i).isSome
        rw [hri]
        rfl
      exact chainLenAux_isSome h1
    cases hc : chainLen st i with
    | none => rw [hc] at hsome; cases hsome
    | some s =>
      have hri' : rootOfAux st (st.nodes.length + 1) i = some r := hri
      have hpi : (parentOf st i).isSome := rootOfAux_parent_isSome hri'
      cases hp : parentOf st i with
      | none => rw [hp] at hpi; cases hpi
      | some p =>
        obtain ⟨x, hx, hxid0⟩ := hI.edgeSrc _ (parentOf_mem hp)
        have hxid : x.id = i := hxid0
        obtain ⟨ρ, s', hρ, hs', hlt⟩ := rooted_of_inv hI hx
        rw [hxid] at hρ hs'
        have hρr : ρ = r := by rw [hρ] at hri; exact Option.some.inj hri
        have hss : s' = s := by rw [hs'] at hc; exact Option.some.inj hc
        have hlt' : s < classSize st r := by rw [← hss, ← hρr]; exact hlt
        have hbound : s + 2 ≤ fuelOf st := by
          unfold fuelOf
          omega
        obtain ⟨c1, c2⟩ := reparent_climb hpr' hph' hrh sp.parent_other hrs s hc hri
        constructor
        · show rootOfAux st' (fuelOf st') i = some h
          rw [hfuel]
          exact rootOfAux_mono hbound c1
        · intro s0 hs0
          have hs0s : s0 = s := (Option.some.inj hs0).symm
          rw [hs0s]
          show chainLenAux st' (fuelOf st') i = some (s + 1)
          rw [hfuel]
          exact chainLenAux_mono hbound c2
  have stable : ∀ i ρ, rootOf st i = some ρ → ρ ≠ r →
      rootOf st' i = some ρ ∧ chainLen st' i = chainLen st i := by
    intro i ρ hρ hρr
    have hclosed : ∀ j p, rootOf st j = some ρ → parentOf st j = some p →
        rootOf st p = some ρ := fun j p h1 h2 => rootOf_parent h1 h2
    have hagree : ∀ j, rootOf st j = some ρ → parentOf st' j = parentOf st j := by
      intro j hj
      have hjr : j ≠ r := by
        intro hjr
        subst hjr
        rw [rootOf_self hrs] at hj
        exact hρr (Option.some.inj hj).symm
      exact sp.parent_other j hjr
    constructor
    · show rootOfAux st' (fuelOf st') i = some ρ
      rw [hfuel,
        rootOfAux_congr_on st st' (fun j => rootOf st j = some ρ) hclosed hagree _ i hρ]
      exact hρ
    · show chainLenAux st' (fuelOf st') i = chainLenAux st (fuelOf st) i
      rw [hfuel,
        chainLenAux_congr_on st st' (fun j => rootOf st j = some ρ) hclosed hagree _ i hρ]
  refine ⟨sp.nodes_eq, sp.nextId_eq, hpr', sp.parent_other, hcount, ?_, ?_, ?_, ?_, ?_, ?_⟩
  · intro i hri
    exact (moved i hri).1
  · intro i ρ hρ hρr
    exact (stable i ρ hρ hρr).1
  · intro i s hri hs
    exact (moved i hri).2 s hs
  · intro i ρ hρ hρr
    exact (stable i ρ hρ hρr).2
  · cases hb : isRoot st' r with
    | false => rfl
    | true =>
      have hmem := isRoot_iff_mem.mp hb
      have := setParent_mem_src hsp hone_r r hmem
      omega
  · intro j hj
    apply bool_eq_of_iff
    rw [isRoot_iff_mem, isRoot_iff_mem]
    exact sp.mem_other (j, j) hj

theorem reparent_classSize_h {st st' : Store} {r h : Nat} (hI : Inv st)
    (rp : ReparentSpec st r h st') (hrh : h ≠ r) :
    classSize st' h = classSize st r + classSize st h := by
  unfold classSize
  rw [rp.nodes_eq]
  have hdisj : ∀ a ∈ st.nodes,
      ¬((rootOf st a.id == some r) = true ∧ (rootOf st a.id == some h) = true) := by
    intro a _ ⟨h1, h2⟩
    rw [beq_iff_eq] at h1 h2
    rw [h1] at h2
    exact hrh (Option.some.inj h2).symm
  rw [← countP_or_disj hdisj]
  apply List.countP_congr
  intro y hy
  obtain ⟨ρy, sy, hρy, _, _⟩ := rooted_of_inv hI hy
  by_cases hρ : ρy = r
  · subst hρ
    rw [rp.rootOf_moved y.id hρy, hρy]
    simp
  · rw [rp.rootOf_stable y.id ρy hρy hρ, hρy]
    simp
    intro h'
    exact absurd h' hρ

theorem reparent_classSize_other {st st' : Store} {r h : Nat} (hI : Inv st)
    (rp : ReparentSpec st r h st') {ρ' : Nat} (hρr : ρ' ≠ r) (hρh : ρ' ≠ h) :
    classSize st' ρ' = classSize st ρ' := by
  unfold classSize
  rw [rp.nodes_eq]
  apply List.countP_congr
  intro y hy
  obtain ⟨ρy, sy, hρy, _, _⟩ := rooted_of_inv hI hy
  by_cases hρ : ρy = r
  · subst hρ
    rw [rp.rootOf_moved y.id hρy, hρy]
    simp
    omega
  · rw [rp.rootOf_stable y.id ρy hρy hρ, hρy]

theorem reparent_inv {st st' : Store} {r h : Nat} (hI : Inv st)
    (hrs : parentOf st r = some r) (hhs : parentOf st h = some h) (hrh : h ≠ r)
    (rp : ReparentSpec st r h st') : Inv st' := by
  obtain ⟨xr, hxr, hxrid⟩ := node_of_parentOf hI hrs
  obtain ⟨xh, hxh, hxhid⟩ := node_of_parentOf hI hhs
  have hsizeh : 0 < classSize st h := by
    refine classSize_pos hxh ?_
    rw [hxhid]
    exact rootOf_self hhs
  refine ⟨?_, ?_, ?_, ?_, ?_, ?_, ?_⟩
  · intro x hx
    rw [rp.nodes_eq] at hx
    rw [rp.nextId_eq]
    exact hI.idsLt x hx
  · intro e he
    have hc : 0 < countSrc st.edges e.1 := by
      rw [← rp.count_all]
      exact countSrc_pos.mpr ⟨e, he, rfl⟩
    obtain ⟨e', he', hfst⟩ := countSrc_pos.mp hc
    obtain ⟨x, hx, hxid⟩ := hI.edgeSrc e' he'
    rw [rp.nodes_eq]
    exact ⟨x, hx, by omega⟩
  · intro e he
    by_cases her : e.1 = r
    · have hone_r : countSrc st.edges r = 1 := by
        rw [← hxrid]; exact hI.oneEdge xr hxr
      have hone_r' : countSrc st'.edges r = 1 := by rw [rp.count_all]; exact hone_r
      have : parentOf st' e.1 = some e.2 :=
        parentOf_of_countOne (her ▸ hone_r') (by exact he)
      rw [her, rp.parent_r] at this
      have : e.2 = h := by simpa using this.symm
      rw [rp.nodes_eq, this]
      exact ⟨xh, hxh, hxhid⟩
    · have := (rp.count_all e.1).symm
      have hmem : e ∈ st.edges := by
        have hc : 0 < countSrc st'.edges e.1 := countSrc_pos.mpr ⟨e, he, rfl⟩
        rw [rp.count_all] at hc
        obtain ⟨e', he', hfst⟩ := countSrc_pos.mp hc
        -- instead recover membership through parentOf equality
        have hone : countSrc st.edges e.1 = 1 := by
          obtain ⟨x, hx, hxid⟩ := hI.edgeSrc e' (he')
          rw [← show x.id = e.1 by omega]
          exact hI.oneEdge x hx
        have hone' : countSrc st'.edges e.1 = 1 := by rw [rp.count_all]; exact hone
        have hp' : parentOf st' e.1 = some e.2 :=
          parentOf_of_countOne hone' (by exact he)
        rw [rp.parent_other e.1 her] at hp'
        exact parentOf_mem hp'
      obtain ⟨x, hx, hxid⟩ := hI.edgeTgt e hmem
      rw [rp.nodes_eq]
      exact ⟨x, hx, hxid⟩
  · rw [rp.nodes_eq]; exact hI.nodupIds
  · rw [rp.nodes_eq]; exact hI.nodupKeys
  · intro x hx
    rw [rp.nodes_eq] at hx
    rw [rp.count_all]
    exact hI.oneEdge x hx
  · intro x hx
    rw [rp.nodes_eq] at hx
    rw [depthOkB_iff]
    obtain ⟨ρ, s, hρ, hs, hlt⟩ := rooted_of_inv hI hx
    by_cases hρr : ρ = r
    · subst hρr
      refine ⟨h, s + 1, rp.rootOf_moved x.id hρ, rp.chain_moved x.id s hρ hs, ?_⟩
      rw [reparent_classSize_h hI rp hrh]
      omega
    · refine ⟨ρ, s, rp.rootOf_stable x.id ρ hρ hρr, by rw [rp.chain_stable x.id ρ hρ hρr]; exact hs, ?_⟩
      by_cases hρh : ρ = h
      · subst hρh
        rw [reparent_classSize_h hI rp hrh]
        omega
      · rw [reparent_classSize_other hI rp hρr hρh]
        exact hlt

/-! ## `find`: branch equations -/

theorem find_eq_create {st : Store} {t n : String} (hlk : lookup st t n = none) :
    find st t n = some (⟨st.nextId, t, n, 1⟩,
      ⟨st.nodes ++ [⟨st.nextId, t, n, 1⟩],
        st.edges ++ [(st.nextId, st.nextId)], st.nextId + 1⟩) := by
  unfold find
  rw [hlk]

theorem find_eq_fast {st : Store} {t n : String} {e : Node}
    (hlk : lookup st t n = some e) (hrt : isRoot st e.id = true) :
    find st t n = some (e, st) := by
  unfold find
  rw [hlk]
  show (if isRoot st e.id then _ else _) = _
  rw [hrt]
  rfl

theorem find_eq_compress {st : Store} {t n : String} {e : Node} {r : Nat} {rootNode : Node}
    (hlk : lookup st t n = some e) (hnr : isRoot st e.id = false)
    (hr : rootOf st e.id = some r) (hg : getNode st r = some rootNode) :
    find st t n = match compress st r (ancestorsOf st r) with
      | none => none
      | some st1 => some (rootNode, st1) := by
  unfold find
  rw [hlk]
  show (if isRoot st e.id then _ else _) = _
  rw [hnr]
  show (match rootOf st e.id with
    | none => none
    | some r => match getNode st r with
      | none => none
      | some rootNode => match compress st r (ancestorsOf st r) with
        | none => none
        | some st1 => some (rootNode, st1)) = _
  rw [hr]
  show (match getNode st r with
    | none => none
    | some rootNode => match compress st r (ancestorsOf st r) with
      | none => none
      | some st1 => some (rootNode, st1)) = _
  rw [hg]

/-! ## `find`: postcondition -/

structure FindPost (st : Store) (t n : String) (rn : Node) (st' : Store) : Prop where
  inv : Inv st'
  nextId_le : st.nextId ≤ st'.nextId
  nodes_shape : st'.nodes = st.nodes ∨ st'.nodes = st.nodes ++ [⟨st.nextId, t, n, 1⟩]
  nodes_eq_of_found : (lookup st t n).isSome → st'.nodes = st.nodes
  getNode_pres : ∀ x ∈ st.nodes, getNode st' x.id = getNode st x.id
  lookup_pres : ∀ t' n' e, lookup st t' n' = some e → lookup st' t' n' = some e
  rootOf_pres : ∀ x ∈ st.nodes, rootOf st' x.id = rootOf st x.id
  isRoot_pres : ∀ x ∈ st.nodes, isRoot st' x.id = isRoot st x.id
  classSize_pres : ∀ ρ, ρ < st.nextId → classSize st' ρ = classSize st ρ
  parent_roots_pres : ∀ j, parentOf st j = some j → parentOf st' j = some j
  root_self : parentOf st' rn.id = some rn.id
  rn_stored : getNode st' rn.id = some rn
  elem_root : ∃ e, lookup st' t n = some e ∧ rootOf st' e.id = some rn.id
  rn_id_root : ∀ e ρ, lookup st t n = some e → rootOf st e.id = some ρ → rn.id = ρ
  wc_pres : WeightConservation st → WeightConservation st'

/-! ### The creation branch -/

theorem create_post {st : Store} {t n : String} (hI : Inv st) (hlk : lookup st t n = none) :
    FindPost st t n ⟨st.nextId, t, n, 1⟩
      ⟨st.nodes ++ [⟨st.nextId, t, n, 1⟩],
        st.edges ++ [(st.nextId, st.nextId)], st.nextId + 1⟩ := by
  set nid := st.nextId with hnid
  set newNode : Node := ⟨nid, t, n, 1⟩ with hnew
  set st' : Store := ⟨st.nodes ++ [newNode], st.edges ++ [(nid, nid)], nid + 1⟩ with hst'
  have hsrc_lt : ∀ e ∈ st.edges, e.1 < nid := by
    intro e he
    obtain ⟨x, hx, hxid⟩ := hI.edgeSrc e he
    have := hI.idsLt x hx
    omega
  have htgt_lt : ∀ e ∈ st.edges, e.2 < nid := by
    intro e he
    obtain ⟨x, hx, hxid⟩ := hI.edgeTgt e he
    have := hI.idsLt x hx
    omega
  have hcount0 : countSrc st.edges nid = 0 := by
    unfold countSrc
    rw [List.countP_eq_zero]
    intro e he
    have := hsrc_lt e he
    simp
    omega
  have hparent_pres : ∀ j, j ≠ nid → parentOf st' j = parentOf st j := by
    intro j hj
    show ((st.edges ++ [(nid, nid)]).find? (fun x => x.1 == j)).map Prod.snd = _
    rw [List.find?_append]
    have hsuffix : List.find? (fun x : Nat × Nat => x.1 == j) [(nid, nid)] = none := by
      rw [List.find?_eq_none]
      intro x hx
      rw [List.mem_singleton] at hx
      subst hx
      simp
      omega
    rw [hsuffix, Option.or_none]
    rfl
  have hparent_new : parentOf st' nid = some nid := by
    show ((st.edges ++ [(nid, nid)]).find? (fun x => x.1 == nid)).map Prod.snd = _
    rw [List.find?_append, find?_src_eq_none hcount0]
    simp
  have hRclosed : ∀ j p, j < nid → parentOf st j = some p → p < nid := by
    intro j p hj hp
    exact htgt_lt _ (parentOf_mem hp)
  have hRagree : ∀ j, j < nid → parentOf st' j = parentOf st j := by
    intro j hj
    exact hparent_pres j (by omega)
  have hrootAux_pres : ∀ f j, j < nid → rootOfAux st' f j = rootOfAux st f j :=
    rootOfAux_congr_on st st' (fun j => j < nid) hRclosed hRagree
  have hchainAux_pres : ∀ f j, j < nid → chainLenAux st' f j = chainLenAux st f j :=
    chainLenAux_congr_on st st' (fun j => j < nid) hRclosed hRagree
  have hfuel' : fuelOf st' = fuelOf st + 1 := by
    show (st.nodes ++ [newNode]).length + 1 = st.nodes.length + 1 + 1
    simp
  have hroot_pres : ∀ j ρ, j < nid → rootOf st j = some ρ → rootOf st' j = some ρ := by
    intro j ρ hj hρ
    show rootOfAux st' (fuelOf st') j = some ρ
    rw [hfuel', hrootAux_pres _ j hj]
    exact rootOfAux_mono (by omega) hρ
  have hchain_pres : ∀ j s, j < nid → chainLen st j = some s → chainLen st' j = some s := by
    intro j s hj hs
    show chainLenAux st' (fuelOf st') j = some s
    rw [hfuel', hchainAux_pres _ j hj]
    exact chainLenAux_mono (by omega) hs
  have hroot_lt : ∀ j ρ, rootOf st j = some ρ → ρ < nid := by
    intro j ρ hρ
    have hself : parentOf st ρ = some ρ := rootOfAux_parent_self hρ
    obtain ⟨x, hx, hxid⟩ := node_of_parentOf hI hself
    have := hI.idsLt x hx
    omega
  have hroot_new : rootOf st' nid = some nid := rootOf_self hparent_new
  have hchain_new : chainLen st' nid = some 0 := by
    show chainLenAux st' (fuelOf st') nid = some 0
    exact chainLenAux_self_pos hparent_new (by unfold fuelOf; omega)
  have hnodes_root : ∀ y ∈ st.nodes, ∃ ρ, rootOf st y.id = some ρ ∧
      rootOf st' y.id = some ρ ∧ ρ < nid := by
    intro y hy
    obtain ⟨ρ, s, hρ, _, _⟩ := rooted_of_inv hI hy
    exact ⟨ρ, hρ, hroot_pres _ _ (hI.idsLt y hy) hρ, hroot_lt _ _ hρ⟩
  have hclassSize : ∀ ρ, ρ < nid → classSize st' ρ = classSize st ρ := by
    intro ρ hρlt
    unfold classSize
    show (st.nodes ++ [newNode]).countP _ = _
    rw [List.countP_append]
    have hsuffix : List.countP (fun y : Node => rootOf st' y.id == some ρ) [newNode] = 0 := by
      rw [List.countP_eq_zero]
      intro a ha
      rw [List.mem_singleton] at ha
      subst ha
      show ¬(rootOf st' nid == some ρ) = true
      rw [hroot_new]
      simp
      omega
    rw [hsuffix]
    have hfront : List.countP (fun y : Node => rootOf st' y.id == some ρ) st.nodes
        = List.countP (fun y : Node => rootOf st y.id == some ρ) st.nodes := by
      apply List.countP_congr
      intro y hy
      obtain ⟨ρy, h1, h2, _⟩ := hnodes_root y hy
      rw [h1, h2]
    rw [hfront]
    omega
  have hclass_new : classSize st' nid = 1 := by
    unfold classSize
    show (st.nodes ++ [newNode]).countP _ = 1
    rw [List.countP_append]
    have hsuffix : List.countP (fun y : Node => rootOf st' y.id == some nid) [newNode] = 1 := by
      show List.countP _ [newNode] = 1
      rw [List.countP_cons]
      simp [hroot_new]
    have hfront : List.countP (fun y : Node => rootOf st' y.id == some nid) st.nodes = 0 := by
      rw [List.countP_eq_zero]
      intro y hy
      obtain ⟨ρy, h1, h2, hlt⟩ := hnodes_root y hy
      rw [h2]
      simp
      omega
    rw [hsuffix, hfront]
  have hgetNode_pres : ∀ i, i ≠ nid → getNode st' i = getNode st i := by
    intro i hi
    show (st.nodes ++ [newNode]).find? _ = _
    rw [List.find?_append]
    have hsuffix : List.find? (fun x : Node => x.id == i) [newNode] = none := by
      rw [List.find?_eq_none]
      intro x hx
      rw [List.mem_singleton] at hx
      subst hx
      show ¬(nid == i) = true
      simp
      omega
    rw [hsuffix, Option.or_none]
    rfl
  have hgetNode_new : getNode st' nid = some newNode := by
    show (st.nodes ++ [newNode]).find? _ = _
    rw [List.find?_append]
    have hfront : List.find? (fun x : Node => x.id == nid) st.nodes = none := by
      rw [List.find?_eq_none]
      intro x hx
      have := hI.idsLt x hx
      simp
      omega
    rw [hfront]
    simp
  have hkey_absent : ∀ x ∈ st.nodes, ¬(x.ty = t ∧ x.nm = n) := by
    intro x hx hxk
    rw [lookup, List.find?_eq_none] at hlk
    exact hlk x hx (by simp [hxk.1, hxk.2])
  have hisRoot_pres : ∀ j, j ≠ nid → isRoot st' j = isRoot st j := by
    intro j hj
    apply bool_eq_of_iff
    rw [isRoot_iff_mem, isRoot_iff_mem]
    show (j, j) ∈ st.edges ++ [(nid, nid)] ↔ (j, j) ∈ st.edges
    rw [List.mem_append]
    constructor
    · rintro (h' | h')
      · exact h'
      · rw [List.mem_singleton] at h'
        exact absurd (congrArg Prod.fst h') (by simp; omega)
    · exact Or.inl
  have hisRoot_new : isRoot st' nid = true := by
    rw [isRoot_iff_mem]
    show (nid, nid) ∈ st.edges ++ [(nid, nid)]
    rw [List.mem_append, List.mem_singleton]
    exact Or.inr rfl
  have hInv' : Inv st' := by
    refine ⟨?_, ?_, ?_, ?_, ?_, ?_, ?_⟩
    · intro x hx
      show x.id < nid + 1
      rcases List.mem_append.mp hx with hx | hx
      · have := hI.idsLt x hx
        omega
      · rw [List.mem_singleton] at hx
        subst hx
        show nid < nid + 1
        omega
    · intro e he
      rcases List.mem_append.mp he with he | he
      · obtain ⟨x, hx, hxid⟩ := hI.edgeSrc e he
        exact ⟨x, List.mem_append.mpr (Or.inl hx), hxid⟩
      · rw [List.mem_singleton] at he
        subst he
        exact ⟨newNode, List.mem_append.mpr (Or.inr (List.mem_singleton.mpr rfl)), rfl⟩
    · intro e he
      rcases List.mem_append.mp he with he | he
      · obtain ⟨x, hx, hxid⟩ := hI.edgeTgt e he
        exact ⟨x, List.mem_append.mpr (Or.inl hx), hxid⟩
      · rw [List.mem_singleton] at he
        subst he
        exact ⟨newNode, List.mem_append.mpr (Or.inr (List.mem_singleton.mpr rfl)), rfl⟩
    · show ((st.nodes ++ [newNode]).map Node.id).Nodup
      rw [List.map_append]
      rw [List.nodup_append]
      refine ⟨hI.nodupIds, by simp, ?_⟩
      intro a ha hb
      rw [List.map_singleton, List.mem_singleton] at hb
      subst hb
      obtain ⟨x, hx, hxid⟩ := List.mem_map.mp ha
      have h1 := hI.idsLt x hx
      have h2 : x.id = nid := hxid
      omega
    · show ((st.nodes ++ [newNode]).map fun x => (x.ty, x.nm)).Nodup
      rw [List.map_append, List.nodup_append]
      refine ⟨hI.nodupKeys, by simp, ?_⟩
      intro a ha hb
      rw [List.map_singleton, List.mem_singleton] at hb
      subst hb
      obtain ⟨x, hx, hxid⟩ := List.mem_map.mp ha
      have h1 : x.ty = t := congrArg Prod.fst hxid
      have h2 : x.nm = n := congrArg Prod.snd hxid
      exact hkey_absent x hx ⟨h1, h2⟩
    · intro x hx
      show countSrc (st.edges ++ [(nid, nid)]) x.id = 1
      unfold countSrc
      rw [List.countP_append]
      rcases List.mem_append.mp hx with hx | hx
      · have hxlt := hI.idsLt x hx
        have h1 := hI.oneEdge x hx
        unfold countSrc at h1
        have h2 : List.countP (fun e : Nat × Nat => e.1 == x.id) [(nid, nid)] = 0 := by
          rw [List.countP_eq_zero]
          intro e he
          rw [List.mem_singleton] at he
          subst he
          simp
          omega
        omega
      · rw [List.mem_singleton] at hx
        subst hx
        show List.countP (fun e : Nat × Nat => e.1 == nid) st.edges
          + List.countP (fun e : Nat × Nat => e.1 == nid) [(nid, nid)] = 1
        unfold countSrc at hcount0
        rw [hcount0]
        simp
    · intro x hx
      rw [depthOkB_iff]
      rcases List.mem_append.mp hx with hx | hx
      · obtain ⟨ρ, s, hρ, hs, hlt⟩ := rooted_of_inv hI hx
        have hxlt := hI.idsLt x hx
        refine ⟨ρ, s, hroot_pres _ _ hxlt hρ, hchain_pres _ _ hxlt hs, ?_⟩
        rw [hclassSize ρ (hroot_lt _ _ hρ)]
        exact hlt
      · rw [List.mem_singleton] at hx
        subst hx
        refine ⟨nid, 0, hroot_new, hchain_new, ?_⟩
        rw [hclass_new]
        omega
  refine ⟨hInv', by show st.nextId ≤ nid + 1; omega, Or.inr rfl, ?_, ?_, ?_, ?_, ?_, hclassSize, ?_, ?_, ?_, ?_, ?_, ?_⟩
  · intro hfound
    rw [hlk] at hfound
    cases hfound
  · intro x hx
    exact hgetNode_pres x.id (by have := hI.idsLt x hx; omega)
  · intro t' n' e he
    show (st.nodes ++ [newNode]).find? _ = some e
    rw [List.find?_append]
    show (lookup st t' n').or _ = some e
    rw [he]
    rfl
  · intro x hx
    obtain ⟨ρ, h1, h2, _⟩ := hnodes_root x hx
    rw [h1, h2]
  · intro x hx
    exact hisRoot_pres x.id (by have := hI.idsLt x hx; omega)
  · intro j hj
    have hjlt : j < nid := by
      obtain ⟨x, hx, hxid⟩ := node_of_parentOf hI hj
      have := hI.idsLt x hx
      omega
    rw [hparent_pres j (by omega)]
    exact hj
  · exact hparent_new
  · exact hgetNode_new
  · refine ⟨newNode, ?_, hroot_new⟩
    show (st.nodes ++ [newNode]).find? _ = some newNode
    rw [List.find?_append]
    show (lookup st t n).or _ = some newNode
    rw [hlk, Option.none_or]
    show List.find? _ [newNode] = some newNode
    rw [List.find?_cons_of_pos _ (by simp)]
  · intro e ρ he
    rw [hlk] at he
    cases he
  · intro hwc x hx hxroot
    rcases List.mem_append.mp hx with hx' | hx'
    · have hxlt := hI.idsLt x hx'
      rw [hisRoot_pres x.id (by omega)] at hxroot
      rw [hclassSize x.id (by omega)]
      exact hwc x hx' hxroot
    · rw [List.mem_singleton] at hx'
      subst hx'
      rw [hclass_new]

/-! ### The fast (existing root) branch -/

theorem fast_post {st : Store} {t n : String} {e : Node} (hI : Inv st)
    (hlk : lookup st t n = some e) (hrt : isRoot st e.id = true) :
    FindPost st t n e st := by
  have hmem : e ∈ st.nodes := lookup_mem hlk
  have hone : countSrc st.edges e.id = 1 := hI.oneEdge e hmem
  have hself : parentOf st e.id = some e.id := (isRoot_iff_parent_self hone).mp hrt
  have hrootself : rootOf st e.id = some e.id := rootOf_self hself
  refine ⟨hI, le_refl _, Or.inl rfl, fun _ => rfl, fun _ _ => rfl, fun _ _ _ h => h,
    fun _ _ => rfl, fun _ _ => rfl, fun _ _ => rfl, fun _ h => h, hself,
    getNode_of_mem hI.nodupIds hmem, ⟨e, hlk, hrootself⟩, ?_, fun h => h⟩
  intro e' ρ he' hρ
  have hee : e' = e := by
    rw [hlk] at he'
    exact (Option.some.inj he').symm
  subst hee
  rw [hrootself] at hρ
  exact Option.some.inj hρ

/-! ### The compression branch -/

theorem countP_pair {α : Type} {l : List α} {p : α → Bool} {x y : α}
    (hx : x ∈ l) (hy : y ∈ l) (hxy : x ≠ y)
    (hpx : p x = true) (hpy : p y = true) : 2 ≤ l.countP p := by
  induction l with
  | nil => cases hx
  | cons a l ih =>
    rw [List.countP_cons]
    rcases List.mem_cons.mp hx with hxa | hxl
    · subst hxa
      rcases List.mem_cons.mp hy with hya | hyl
      · exact absurd hya.symm hxy
      · have h1 : 0 < l.countP p := List.countP_pos_iff.mpr ⟨y, hyl, hpy⟩
        rw [if_pos hpx]
        omega
    · rcases List.mem_cons.mp hy with hya | hyl
      · subst hya
        have h1 : 0 < l.countP p := List.countP_pos_iff.mpr ⟨x, hxl, hpx⟩
        rw [if_pos hpy]
        omega
      · have := ih hxl hyl
        omega

theorem root_two_step {st : Store} {j r : Nat} (hp : parentOf st j = some r)
    (hrr : parentOf st r = some r) (hne : j ≠ r) {f : Nat} (hf : 2 ≤ f) :
    rootOfAux st f j = some r := by
  rw [rootOfAux_step_pred hp (by omega) (by omega)]
  exact rootOfAux_self_pos hrr (by omega)

theorem chain_two_step {st : Store} {j r : Nat} (hp : parentOf st j = some r)
    (hrr : parentOf st r = some r) (hne : j ≠ r) {f : Nat} (hf : 2 ≤ f) :
    chainLenAux st f j = some 1 := by
  rw [chainLenAux_step_pred hp (by omega) (by omega),
    chainLenAux_self_pos hrr (by omega)]
  rfl

theorem mem_ancestorsOf_iff {st : Store} {r : Nat} (hI : Inv st)
    (hrr : parentOf st r = some r) {a : Node} :
    a ∈ ancestorsOf st r ↔ a ∈ st.nodes ∧ rootOf st a.id = some r := by
  unfold ancestorsOf
  rw [List.mem_filter]
  constructor
  · rintro ⟨ha, hre⟩
    refine ⟨ha, ?_⟩
    have hR : Reaches st a.id r := reaches_of_reachesAux hre
    obtain ⟨ρ, s, hρ, _, _⟩ := rooted_of_inv hI ha
    have : r = ρ := root_unique_of_reaches hρ hR hrr
    rw [hρ, this]
  · rintro ⟨ha, hρ⟩
    refine ⟨ha, ?_⟩
    have hsome : (rootOfAux st (fuelOf st) a.id).isSome := by
      show (rootOf st a.id).isSome
      rw [hρ]
      rfl
    rcases rootOfAux_reaches hρ with h' | h'
    · refine reachesAux_of_reaches hsome ?_
      rw [h']
      exact Reaches.single hrr
    · exact reachesAux_of_reaches hsome h'

theorem compress_spec_of_run {st st1 : Store} {r : Nat}
    (hone : ∀ a ∈ ancestorsOf st r, countSrc st.edges a.id = 1)
    (hc : compress st r (ancestorsOf st r) = some st1) :
    CompressSpec st r (ancestorsOf st r) st1 := by
  obtain ⟨st'', hc'', spec⟩ := compress_total r (ancestorsOf st r) st hone
  rw [hc] at hc''
  have := Option.some.inj hc''
  rw [← this] at spec
  exact spec

/-- All facts about the state after the compression loop of `find`. -/
structure CompressFacts (st : Store) (r : Nat) (st1 : Store) : Prop where
  nodes_eq : st1.nodes = st.nodes
  nextId_eq : st1.nextId = st.nextId
  parent_class : ∀ j, rootOf st j = some r → parentOf st1 j = some r
  parent_nonclass : ∀ j, rootOf st j ≠ some r → parentOf st1 j = parentOf st j
  rootOf_all : ∀ j, (rootOf st j).isSome → rootOf st1 j = rootOf st j
  isRoot_all : ∀ x ∈ st.nodes, isRoot st1 x.id = isRoot st x.id
  classSize_all : ∀ ρ, classSize st1 ρ = classSize st ρ
  inv1 : Inv st1

theorem compress_facts {st st1 : Store} {r : Nat} (hI : Inv st)
    (hrr : parentOf st r = some r)
    (hc : compress st r (ancestorsOf st r) = some st1) : CompressFacts st r st1 := by
  have hone : ∀ a ∈ ancestorsOf st r, countSrc st.edges a.id = 1 := by
    intro a ha
    exact hI.oneEdge a (List.mem_filter.mp ha).1
  have spec := compress_spec_of_run hone hc
  have hids : ∀ j, j ∈ (ancestorsOf st r).map Node.id ↔
      (∃ x ∈ st.nodes, x.id = j) ∧ rootOf st j = some r := by
    intro j
    rw [List.mem_map]
    constructor
    · rintro ⟨a, ha, haj⟩
      obtain ⟨ha1, ha2⟩ := (mem_ancestorsOf_iff hI hrr).mp ha
      exact ⟨⟨a, ha1, haj⟩, haj ▸ ha2⟩
    · rintro ⟨⟨x, hx, hxj⟩, hρ⟩
      exact ⟨x, (mem_ancestorsOf_iff hI hrr).mpr ⟨hx, hxj ▸ hρ⟩, hxj⟩
  obtain ⟨xr, hxr, hxrid⟩ := node_of_parentOf hI hrr
  have hrid : rootOf st r = some r := rootOf_self hrr
  have parent_class : ∀ j, rootOf st j = some r → parentOf st1 j = some r := by
    intro j hj
    have hjnode : ∃ x ∈ st.nodes, x.id = j := by
      cases hfj : st.nodes.length with
      | zero =>
        exact absurd hxr (by
          intro hmem
          have : 0 < st.nodes.length := List.length_pos_of_mem hmem
          omega)
      | succ m =>
        have hj' : rootOfAux st (st.nodes.length + 1) j = some r := hj
        have hpj := rootOfAux_parent_isSome hj'
        cases hpj' : parentOf st j with
        | none => rw [hpj'] at hpj; cases hpj
        | some pj =>
          obtain ⟨x, hx, hxid⟩ := hI.edgeSrc _ (parentOf_mem hpj')
          exact ⟨x, hx, hxid⟩
    obtain ⟨x, hx, hxj⟩ := hjnode
    have : x ∈ ancestorsOf st r := (mem_ancestorsOf_iff hI hrr).mpr ⟨hx, hxj ▸ hj⟩
    have := spec.parent_mem x this
    rwa [hxj] at this
  have parent_nonclass : ∀ j, rootOf st j ≠ some r → parentOf st1 j = parentOf st j := by
    intro j hj
    apply spec.parent_other
    intro hmem
    exact hj ((hids j).mp hmem).2
  have hparent_r1 : parentOf st1 r = some r := parent_class r hrid
  have hfuel1 : fuelOf st1 = fuelOf st := by
    unfold fuelOf
    rw [spec.nodes_eq]
  have hfuel2 : 2 ≤ fuelOf st := by
    unfold fuelOf
    have : 0 < st.nodes.length := List.length_pos_of_mem hxr
    omega
  have rootOf_all : ∀ j, (rootOf st j).isSome → rootOf st1 j = rootOf st j := by
    intro j hsome
    cases hρ : rootOf st j with
    | none => rw [hρ] at hsome; cases hsome
    | some ρ =>
      by_cases hρr : ρ = r
      · subst hρr
        have hp1 : parentOf st1 j = some ρ := parent_class j hρ
        by_cases hjρ : j = ρ
        · subst hjρ
          show rootOfAux st1 (fuelOf st1) j = some j
          exact rootOfAux_self_pos hp1 (by omega)
        · show rootOfAux st1 (fuelOf st1) j = some ρ
          rw [hfuel1]
          exact root_two_step hp1 hparent_r1 hjρ hfuel2
      · show rootOfAux st1 (fuelOf st1) j = some ρ
        rw [hfuel1]
        have hcongr := rootOfAux_congr_on st st1 (fun j' => rootOf st j' = some ρ)
          (fun j' p h1 h2 => rootOf_parent h1 h2)
          (fun j' hj' => parent_nonclass j' (by rw [hj']; simp; omega))
          (fuelOf st) j hρ
        rw [hcongr]
        exact hρ
  have isRoot_all : ∀ x ∈ st.nodes, isRoot st1 x.id = isRoot st x.id := by
    intro x hx
    have hone_x : countSrc st.edges x.id = 1 := hI.oneEdge x hx
    have hone_x1 : countSrc st1.edges x.id = 1 := by
      rw [spec.count_all]
      exact hone_x
    obtain ⟨ρ, s, hρ, _, _⟩ := rooted_of_inv hI hx
    by_cases hρr : ρ = r
    · have hρr' : rootOf st x.id = some r := by rw [hρ, hρr]
      by_cases hxr' : x.id = r
      · have h1 : isRoot st x.id = true := by
          rw [isRoot_iff_mem, hxr']
          exact parentOf_mem hrr
        have h2 : isRoot st1 x.id = true := by
          rw [isRoot_iff_mem, hxr']
          exact parentOf_mem hparent_r1
        rw [h1, h2]
      · have h1 : isRoot st x.id = false := by
          cases hb : isRoot st x.id with
          | false => rfl
          | true =>
            have := (isRoot_iff_parent_self hone_x).mp hb
            rw [rootOf_self this] at hρr'
            exact absurd (Option.some.inj hρr') hxr'
        have h2 : isRoot st1 x.id = false := by
          cases hb : isRoot st1 x.id with
          | false => rfl
          | true =>
            have := (isRoot_iff_parent_self hone_x1).mp hb
            rw [parent_class x.id hρr'] at this
            exact absurd (Option.some.inj this).symm hxr'
        rw [h1, h2]
    · have hx_nr : x.id ∉ (ancestorsOf st r).map Node.id := by
        intro hmem
        have := ((hids x.id).mp hmem).2
        rw [hρ] at this
        exact hρr (Option.some.inj this)
      apply bool_eq_of_iff
      rw [isRoot_iff_mem, isRoot_iff_mem]
      exact spec.mem_other (x.id, x.id) hx_nr
  have classSize_all : ∀ ρ, classSize st1 ρ = classSize st ρ := by
    intro ρ
    unfold classSize
    rw [spec.nodes_eq]
    apply List.countP_congr
    intro y hy
    obtain ⟨ρy, sy, hρy, _, _⟩ := rooted_of_inv hI hy
    rw [rootOf_all y.id (by rw [hρy]; rfl)]
  have inv1 : Inv st1 := by
    refine ⟨?_, ?_, ?_, ?_, ?_, ?_, ?_⟩
    · intro x hx
      rw [spec.nodes_eq] at hx
      rw [spec.nextId_eq]
      exact hI.idsLt x hx
    · intro e he
      rcases spec.edges_sub e he with h' | h'
      · obtain ⟨x, hx, hxid⟩ := hI.edgeSrc e h'
        rw [spec.nodes_eq]
        exact ⟨x, hx, hxid⟩
      · obtain ⟨a, ha, haid⟩ := List.mem_map.mp h'.1
        rw [spec.nodes_eq]
        exact ⟨a, (List.mem_filter.mp ha).1, haid.symm ▸ rfl⟩
    · intro e he
      rcases spec.edges_sub e he with h' | h'
      · obtain ⟨x, hx, hxid⟩ := hI.edgeTgt e h'
        rw [spec.nodes_eq]
        exact ⟨x, hx, hxid⟩
      · rw [spec.nodes_eq, h'.2]
        exact ⟨xr, hxr, hxrid⟩
    · rw [spec.nodes_eq]; exact hI.nodupIds
    · rw [spec.nodes_eq]; exact hI.nodupKeys
    · intro x hx
      rw [spec.nodes_eq] at hx
      rw [spec.count_all]
      exact hI.oneEdge x hx
    · intro x hx
      rw [spec.nodes_eq] at hx
      rw [depthOkB_iff]
      obtain ⟨ρ, s, hρ, hs, hlt⟩ := rooted_of_inv hI hx
      by_cases hρr : ρ = r
      · have hρr' : rootOf st x.id = some r := by rw [hρ, hρr]
        have hsize_pos : 0 < classSize st r := classSize_pos hx hρr'
        by_cases hxr' : x.id = r
        · refine ⟨r, 0, ?_, ?_, ?_⟩
          · rw [rootOf_all x.id (by rw [hρ]; rfl)]
            exact hρr'
          · show chainLenAux st1 (fuelOf st1) x.id = some 0
            refine chainLenAux_self_pos ?_ (by rw [hfuel1]; omega)
            rw [hxr']
            exact hparent_r1
          · rw [classSize_all]
            omega
        · refine ⟨r, 1, ?_, ?_, ?_⟩
          · rw [rootOf_all x.id (by rw [hρ]; rfl)]
            exact hρr'
          · show chainLenAux st1 (fuelOf st1) x.id = some 1
            rw [hfuel1]
            exact chain_two_step (parent_class x.id hρr') hparent_r1 hxr' hfuel2
          · rw [classSize_all]
            have hxne : x ≠ xr := by
              intro hxx
              rw [hxx] at hxr'
              exact hxr' hxrid
            have h2 : 2 ≤ classSize st r := by
              unfold classSize
              exact countP_pair hx hxr hxne (by simp [hρr'])
                (by simp [hxrid, rootOf_self hrr])
            omega
      · refine ⟨ρ, s, ?_, ?_, ?_⟩
        · rw [rootOf_all x.id (by rw [hρ]; rfl), hρ]
        · show chainLenAux st1 (fuelOf st1) x.id = some s
          rw [hfuel1]
          have hcongr := chainLenAux_congr_on st st1 (fun j' => rootOf st j' = some ρ)
            (fun j' p h1 h2 => rootOf_parent h1 h2)
            (fun j' hj' => parent_nonclass j' (by rw [hj']; simp; omega))
            (fuelOf st) x.id hρ
          rw [hcongr]
          exact hs
        · rw [classSize_all]
          exact hlt
  exact ⟨spec.nodes_eq, spec.nextId_eq, parent_class, parent_nonclass,
    rootOf_all, isRoot_all, classSize_all, inv1⟩

theorem compress_branch_post {st st1 : Store} {t n : String} {e rootNode : Node} {r : Nat}
    (hI : Inv st) (hlk : lookup st t n = some e) (hnr : isRoot st e.id = false)
    (hr : rootOf st e.id = some r) (hg : getNode st r = some rootNode)
    (hc : compress st r (ancestorsOf st r) = some st1) :
    FindPost st t n rootNode st1 := by
  have hrr : parentOf st r = some r := rootOfAux_parent_self hr
  have cf := compress_facts hI hrr hc
  have hrnid : rootNode.id = r := getNode_id hg
  have hgetNode_all : ∀ i, getNode st1 i = getNode st i := by
    intro i
    unfold getNode
    rw [cf.nodes_eq]
  have hlookup_all : ∀ t' n', lookup st1 t' n' = lookup st t' n' := by
    intro t' n'
    unfold lookup
    rw [cf.nodes_eq]
  refine ⟨cf.inv1, Nat.le_of_eq cf.nextId_eq.symm, Or.inl cf.nodes_eq,
    fun _ => cf.nodes_eq, fun x _ => hgetNode_all x.id,
    fun t' n' e' he' => by rw [hlookup_all]; exact he',
    ?_, cf.isRoot_all, fun ρ _ => cf.classSize_all ρ, ?_, ?_, ?_, ?_, ?_, ?_⟩
  · intro x hx
    obtain ⟨ρ, s, hρ, _, _⟩ := rooted_of_inv hI hx
    exact cf.rootOf_all x.id (by rw [hρ]; rfl)
  · intro j hj
    by_cases hjr : j = r
    · rw [hjr]
      exact cf.parent_class r (rootOf_self hrr)
    · rw [cf.parent_nonclass j (by rw [rootOf_self hj]; simp; omega)]
      exact hj
  · rw [hrnid]
    exact cf.parent_class r (rootOf_self hrr)
  · rw [hrnid, hgetNode_all]
    exact hg
  · refine ⟨e, by rw [hlookup_all]; exact hlk, ?_⟩
    rw [cf.rootOf_all e.id (by rw [hr]; rfl), hr, hrnid]
  · intro e' ρ he' hρ
    have hee : e' = e := by
      rw [hlk] at he'
      exact (Option.some.inj he').symm
    subst hee
    rw [hr] at hρ
    rw [hrnid]
    exact Option.some.inj hρ
  · intro hwc x hx hxroot
    rw [cf.nodes_eq] at hx
    rw [cf.isRoot_all x hx] at hxroot
    rw [cf.classSize_all]
    exact hwc x hx hxroot

/-! ### Combined `find` specification -/

theorem find_spec {st st' : Store} {t n : String} {rn : Node} (hI : Inv st)
    (hf : find st t n = some (rn, st')) : FindPost st t n rn st' := by
  cases hlk : lookup st t n with
  | none =>
    rw [find_eq_create hlk] at hf
    have h1 := Option.some.inj hf
    have hrn : rn = ⟨st.nextId, t, n, 1⟩ := (congrArg Prod.fst h1).symm
    have hst : st' = ⟨st.nodes ++ [⟨st.nextId, t, n, 1⟩],
        st.edges ++ [(st.nextId, st.nextId)], st.nextId + 1⟩ := (congrArg Prod.snd h1).symm
    rw [hrn, hst]
    exact create_post hI hlk
  | some e =>
    cases hrt : isRoot st e.id with
    | true =>
      rw [find_eq_fast hlk hrt] at hf
      have h1 := Option.some.inj hf
      have hrn : rn = e := (congrArg Prod.fst h1).symm
      have hst : st' = st := (congrArg Prod.snd h1).symm
      rw [hrn, hst]
      exact fast_post hI hlk hrt
    | false =>
      obtain ⟨ρ, s, hρ, _, _⟩ := rooted_of_inv hI (lookup_mem hlk)
      have hrr : parentOf st ρ = some ρ := rootOfAux_parent_self hρ
      obtain ⟨x, hx, hxid⟩ := node_of_parentOf hI hrr
      have hg : getNode st ρ = some x := by
        rw [← hxid]
        exact getNode_of_mem hI.nodupIds hx
      rw [find_eq_compress hlk hrt hρ hg] at hf
      cases hc : compress st ρ (ancestorsOf st ρ) with
      | none => rw [hc] at hf; cases hf
      | some st1 =>
        rw [hc] at hf
        have h1 := Option.some.inj hf
        have hrn : rn = x := (congrArg Prod.fst h1).symm
        have hst : st' = st1 := (congrArg Prod.snd h1).symm
        rw [hrn, hst]
        exact compress_branch_post hI hlk hrt hρ hg hc

theorem find_total {st : Store} (hI : Inv st) (t n : String) :
    ∃ rn st', find st t n = some (rn, st') := by
  cases hlk : lookup st t n with
  | none => exact ⟨_, _, find_eq_create hlk⟩
  | some e =>
    cases hrt : isRoot st e.id with
    | true => exact ⟨e, st, find_eq_fast hlk hrt⟩
    | false =>
      obtain ⟨ρ, s, hρ, _, _⟩ := rooted_of_inv hI (lookup_mem hlk)
      have hrr : parentOf st ρ = some ρ := rootOfAux_parent_self hρ
      obtain ⟨x, hx, hxid⟩ := node_of_parentOf hI hrr
      have hg : getNode st ρ = some x := by
        rw [← hxid]
        exact getNode_of_mem hI.nodupIds hx
      have hone : ∀ a ∈ ancestorsOf st ρ, countSrc st.edges a.id = 1 :=
        fun a ha => hI.oneEdge a (List.mem_filter.mp ha).1
      obtain ⟨st1, hc, _⟩ := compress_total ρ (ancestorsOf st ρ) st hone
      refine ⟨x, st1, ?_⟩
      rw [find_eq_compress hlk hrt hρ hg, hc]

theorem FindPost.nodes_sub {st st' : Store} {t n : String} {rn : Node}
    (fp : FindPost st t n rn st') : ∀ x ∈ st.nodes, x ∈ st'.nodes := by
  intro x hx
  rcases fp.nodes_shape with h | h
  · rw [h]; exact hx
  · rw [h]; exact List.mem_append.mpr (Or.inl hx)

/-! ## `findAll`: the root-collection loop of `union` -/

structure FindAllPost (st : Store) (ps : List (String × String))
    (roots : List Node) (st1 : Store) : Prop where
  inv : Inv st1
  nextId_le : st.nextId ≤ st1.nextId
  getNode_pres : ∀ x ∈ st.nodes, getNode st1 x.id = getNode st x.id
  lookup_pres : ∀ t' n' e, lookup st t' n' = some e → lookup st1 t' n' = some e
  rootOf_pres : ∀ x ∈ st.nodes, rootOf st1 x.id = rootOf st x.id
  isRoot_pres : ∀ x ∈ st.nodes, isRoot st1 x.id = isRoot st x.id
  classSize_pres : ∀ ρ, ρ < st.nextId → classSize st1 ρ = classSize st ρ
  parent_roots_pres : ∀ j, parentOf st j = some j → parentOf st1 j = some j
  roots_root : ∀ r ∈ roots, parentOf st1 r.id = some r.id
  roots_stored : ∀ r ∈ roots, getNode st1 r.id = some r
  pairs_root : ∀ p ∈ ps, ∃ e, lookup st1 p.1 p.2 = some e ∧
    ∃ r, r ∈ roots ∧ rootOf st1 e.id = some r.id
  roots_ids : ∀ r ∈ roots, ∃ p ∈ ps, ∃ e, lookup st1 p.1 p.2 = some e ∧
    rootOf st1 e.id = some r.id
  nodes_sub : ∀ x ∈ st.nodes, x ∈ st1.nodes
  nodes_eq_of_found : (∀ p ∈ ps, (lookup st p.1 p.2).isSome) → st1.nodes = st.nodes
  wc_pres : WeightConservation st → WeightConservation st1

theorem findAll_spec : ∀ (ps : List (String × String)) {st : Store}
    {roots : List Node} {st1 : Store}, Inv st →
    findAll st ps = some (roots, st1) → FindAllPost st ps roots st1 := by
  intro ps
  induction ps with
  | nil =>
    intro st roots st1 hI hf
    unfold findAll at hf
    have h1 := Option.some.inj hf
    have hroots : roots = [] := (congrArg Prod.fst h1).symm
    have hst : st1 = st := (congrArg Prod.snd h1).symm
    subst hroots hst
    exact ⟨hI, le_refl _, fun _ _ => rfl, fun _ _ _ h => h, fun _ _ => rfl,
      fun _ _ => rfl, fun _ _ => rfl, fun _ h => h, by simp, by simp, by simp,
      by simp, fun _ h => h, fun _ => rfl, fun h => h⟩
  | cons p ps ih =>
    intro st roots st1 hI hf
    unfold findAll at hf
    cases hfind : find st p.1 p.2 with
    | none => rw [hfind] at hf; cases hf
    | some pr =>
      obtain ⟨r, stm⟩ := pr
      rw [hfind] at hf
      have hf2 : (match findAll stm ps with
          | none => none
          | some (rs, st2) => some (r :: rs, st2)) = some (roots, st1) := hf
      cases hrest : findAll stm ps with
      | none => rw [hrest] at hf2; cases hf2
      | some pr2 =>
        obtain ⟨rs, st2⟩ := pr2
        rw [hrest] at hf2
        have h1 := Option.some.inj hf2
        have hroots : roots = r :: rs := (congrArg Prod.fst h1).symm
        have hst : st1 = st2 := (congrArg Prod.snd h1).symm
        subst hroots hst
        have fp := find_spec hI hfind
        have IH := ih fp.inv hrest
        refine ⟨IH.inv, le_trans fp.nextId_le IH.nextId_le, ?_, ?_, ?_, ?_, ?_,
          ?_, ?_, ?_, ?_, ?_, ?_, ?_, ?_⟩
        · intro x hx
          rw [IH.getNode_pres x (fp.nodes_sub x hx), fp.getNode_pres x hx]
        · intro t' n' e he
          exact IH.lookup_pres t' n' e (fp.lookup_pres t' n' e he)
        · intro x hx
          rw [IH.rootOf_pres x (fp.nodes_sub x hx), fp.rootOf_pres x hx]
        · intro x hx
          rw [IH.isRoot_pres x (fp.nodes_sub x hx), fp.isRoot_pres x hx]
        · intro ρ hρ
          rw [IH.classSize_pres ρ (lt_of_lt_of_le hρ fp.nextId_le),
            fp.classSize_pres ρ hρ]
        · intro j hj
          exact IH.parent_roots_pres j (fp.parent_roots_pres j hj)
        · intro r' hr'
          rcases List.mem_cons.mp hr' with h' | h'
          · subst h'
            exact IH.parent_roots_pres r'.id fp.root_self
          · exact IH.roots_root r' h'
        · intro r' hr'
          rcases List.mem_cons.mp hr' with h' | h'
          · subst h'
            rw [IH.getNode_pres r' (getNode_mem fp.rn_stored)]
            exact fp.rn_stored
          · exact IH.roots_stored r' h'
        · intro p' hp'
          rcases List.mem_cons.mp hp' with h' | h'
          · subst h'
            obtain ⟨e, he, hre⟩ := fp.elem_root
            refine ⟨e, IH.lookup_pres _ _ e he, r, List.mem_cons_self _ _, ?_⟩
            rw [IH.rootOf_pres e (lookup_mem he)]
            exact hre
          · obtain ⟨e, he, r', hr', hre⟩ := IH.pairs_root p' h'
            exact ⟨e, he, r', List.mem_cons_of_mem _ hr', hre⟩
        · intro r' hr'
          rcases List.mem_cons.mp hr' with h' | h'
          · subst h'
            obtain ⟨e, he, hre⟩ := fp.elem_root
            refine ⟨p, List.mem_cons_self _ _, e, IH.lookup_pres _ _ e he, ?_⟩
            rw [IH.rootOf_pres e (lookup_mem he)]
            exact hre
          · obtain ⟨p', hp', e, he, hre⟩ := IH.roots_ids r' h'
            exact ⟨p', List.mem_cons_of_mem _ hp', e, he, hre⟩
        · intro x hx
          exact IH.nodes_sub x (fp.nodes_sub x hx)
        · intro hall
          have hhead : (lookup st p.1 p.2).isSome := hall p (List.mem_cons_self _ _)
          have hm : stm.nodes = st.nodes := fp.nodes_eq_of_found hhead
          have htail : ∀ p' ∈ ps, (lookup stm p'.1 p'.2).isSome := by
            intro p' hp'
            have := hall p' (List.mem_cons_of_mem _ hp')
            cases he : lookup st p'.1 p'.2 with
            | none => rw [he] at this; cases this
            | some e => rw [fp.lookup_pres _ _ e he]; rfl
          rw [IH.nodes_eq_of_found htail, hm]
        · intro hwc
          exact IH.wc_pres (fp.wc_pres hwc)

/-! ## `maxByWeight`: Python's first-maximum semantics -/

theorem foldl_max_spec : ∀ (rs : List Node) (r : Node),
    (∀ x ∈ r :: rs, x.weight ≤
      (rs.foldl (fun m x => if m.weight < x.weight then x else m) r).weight) ∧
    ∃ i, i < (r :: rs).length ∧
      (r :: rs)[i]? = some (rs.foldl (fun m x => if m.weight < x.weight then x else m) r) ∧
      ∀ j, j < i → ∀ x, (r :: rs)[j]? = some x →
        x.weight < (rs.foldl (fun m x => if m.weight < x.weight then x else m) r).weight := by
  intro rs
  induction rs with
  | nil =>
    intro r
    constructor
    · intro x hx
      rw [List.mem_singleton] at hx
      subst hx
      exact le_refl _
    · exact ⟨0, by simp, by simp, fun j hj => by omega⟩
  | cons x rs ih =>
    intro r
    show (∀ y ∈ r :: x :: rs, y.weight ≤
        ((x :: rs).foldl (fun m z => if m.weight < z.weight then z else m) r).weight) ∧ _
    rw [List.foldl_cons]
    by_cases hlt : r.weight < x.weight
    · rw [if_pos hlt]
      obtain ⟨ihbound, i, hi, hget, hpre⟩ := ih x
      constructor
      · intro y hy
        rcases List.mem_cons.mp hy with hy | hy
        · subst hy
          exact le_of_lt (lt_of_lt_of_le hlt (ihbound x (List.mem_cons_self _ _)))
        · exact ihbound y hy
      · refine ⟨i + 1, by simpa using hi, by simpa using hget, ?_⟩
        intro j hj y hy
        cases j with
        | zero =>
          rw [List.getElem?_cons_zero] at hy
          have : y = r := (Option.some.inj hy).symm
          subst this
          exact lt_of_lt_of_le hlt (ihbound x (List.mem_cons_self _ _))
        | succ j' =>
          rw [List.getElem?_cons_succ] at hy
          exact hpre j' (by omega) y hy
    · rw [if_neg hlt]
      obtain ⟨ihbound, i, hi, hget, hpre⟩ := ih r
      have hxr : x.weight ≤ r.weight := by omega
      constructor
      · intro y hy
        rcases List.mem_cons.mp hy with hy | hy
        · subst hy
          exact ihbound y (List.mem_cons_self _ _)
        · rcases List.mem_cons.mp hy with hy | hy
          · subst hy
            exact le_trans hxr (ihbound r (List.mem_cons_self _ _))
          · exact ihbound y (List.mem_cons_of_mem _ hy)
      · cases i with
        | zero =>
          rw [List.getElem?_cons_zero] at hget
          refine ⟨0, by simp, by simpa using hget, fun j hj => by omega⟩
        | succ i' =>
          rw [List.getElem?_cons_succ] at hget
          refine ⟨i' + 2, by simp at hi ⊢; omega, by simpa using hget, ?_⟩
          intro j hj y hy
          cases j with
          | zero =>
            rw [List.getElem?_cons_zero] at hy
            have : y = r := (Option.some.inj hy).symm
            subst this
            exact hpre 0 (by omega) y (by rw [List.getElem?_cons_zero])
          | succ j' =>
            rw [List.getElem?_cons_succ] at hy
            cases j' with
            | zero =>
              rw [List.getElem?_cons_zero] at hy
              have : y = x := (Option.some.inj hy).symm
              subst this
              exact lt_of_le_of_lt hxr (hpre 0 (by omega) r (by rw [List.getElem?_cons_zero]))
            | succ j'' =>
              rw [List.getElem?_cons_succ] at hy
              exact hpre (j'' + 1) (by omega) y (by rw [List.getElem?_cons_succ]; exact hy)

theorem maxByWeight_spec {l : List Node} {m : Node} (h : maxByWeight l = some m) :
    (∀ x ∈ l, x.weight ≤ m.weight) ∧ m ∈ l ∧
    ∃ i, i < l.length ∧ l[i]? = some m ∧
      ∀ j, j < i → ∀ x, l[j]? = some x → x.weight < m.weight := by
  cases l with
  | nil => cases h
  | cons r rs =>
    have hm : m = rs.foldl (fun m x => if m.weight < x.weight then x else m) r := by
      unfold maxByWeight at h
      exact (Option.some.inj h).symm
    obtain ⟨hbound, i, hi, hget, hpre⟩ := foldl_max_spec rs r
    subst hm
    refine ⟨hbound, ?_, i, hi, hget, hpre⟩
    have := List.getElem?_eq_some_iff.mp hget
    obtain ⟨hlt, heq⟩ := this
    rw [← heq]
    exact List.getElem_mem _

/-! ## A `_set_parent` call that rewrites an edge to its current value -/

structure NoopSpec (st st2 : Store) : Prop where
  nodes_eq : st2.nodes = st.nodes
  nextId_eq : st2.nextId = st.nextId
  parent_all : ∀ j, parentOf st2 j = parentOf st j
  count_all : ∀ j, countSrc st2.edges j = countSrc st.edges j
  isRoot_all : ∀ j, isRoot st2 j = isRoot st j
  rootOf_all : ∀ i, rootOf st2 i = rootOf st i
  chainLen_all : ∀ i, chainLen st2 i = chainLen st i
  classSize_all : ∀ ρ, classSize st2 ρ = classSize st ρ
  inv2 : Inv st2

theorem setParent_noop_spec {st st2 : Store} {r q : Nat} (hI : Inv st)
    (hq : parentOf st r = some q) (hsp : setParent st r q = some st2) :
    NoopSpec st st2 := by
  have sp := setParent_spec hsp
  obtain ⟨xr, hxr, hxrid⟩ := node_of_parentOf hI hq
  have hone : countSrc st.edges r = 1 := by rw [← hxrid]; exact hI.oneEdge xr hxr
  have parent_all : ∀ j, parentOf st2 j = parentOf st j := by
    intro j
    by_cases hj : j = r
    · subst hj
      rw [sp.parent_self hone, hq]
    · exact sp.parent_other j hj
  have count_all : ∀ j, countSrc st2.edges j = countSrc st.edges j := by
    intro j
    by_cases hj : j = r
    · subst hj; exact sp.count_self
    · exact sp.count_other j hj
  have isRoot_all : ∀ j, isRoot st2 j = isRoot st j := by
    intro j
    by_cases hj : j = r
    · subst hj
      apply bool_eq_of_iff
      rw [isRoot_iff_mem, isRoot_iff_mem]
      constructor
      · intro hmem
        have := setParent_mem_src hsp hone j hmem
        subst this
        exact parentOf_mem hq
      · intro hmem
        have h1 := parentOf_of_countOne hone hmem
        rw [hq] at h1
        have : q = j := Option.some.inj h1
        subst this
        exact sp.mem_new
    · apply bool_eq_of_iff
      rw [isRoot_iff_mem, isRoot_iff_mem]
      exact sp.mem_other (j, j) hj
  have hfuel : fuelOf st2 = fuelOf st := by
    unfold fuelOf; rw [sp.nodes_eq]
  have rootOf_all : ∀ i, rootOf st2 i = rootOf st i := by
    intro i
    show rootOfAux st2 (fuelOf st2) i = rootOfAux st (fuelOf st) i
    rw [hfuel]
    exact rootOfAux_congr_on st st2 (fun _ => True) (fun _ _ _ _ => trivial)
      (fun j _ => parent_all j) _ i trivial
  have chainLen_all : ∀ i, chainLen st2 i = chainLen st i := by
    intro i
    show chainLenAux st2 (fuelOf st2) i = chainLenAux st (fuelOf st) i
    rw [hfuel]
    exact chainLenAux_congr_on st st2 (fun _ => True) (fun _ _ _ _ => trivial)
      (fun j _ => parent_all j) _ i trivial
  have classSize_all : ∀ ρ, classSize st2 ρ = classSize st ρ := by
    intro ρ
    unfold classSize
    rw [sp.nodes_eq]
    apply List.countP_congr
    intro y _
    rw [rootOf_all y.id]
  have inv2 : Inv st2 := by
    refine ⟨?_, ?_, ?_, ?_, ?_, ?_, ?_⟩
    · intro x hx
      rw [sp.nodes_eq] at hx
      rw [sp.nextId_eq]
      exact hI.idsLt x hx
    · intro e he
      rcases sp.edges_sub e he with h' | h'
      · obtain ⟨x, hx, hxid⟩ := hI.edgeSrc e h'
        rw [sp.nodes_eq]
        exact ⟨x, hx, hxid⟩
      · rw [sp.nodes_eq, h']
        exact ⟨xr, hxr, hxrid⟩
    · intro e he
      rcases sp.edges_sub e he with h' | h'
      · obtain ⟨x, hx, hxid⟩ := hI.edgeTgt e h'
        rw [sp.nodes_eq]
        exact ⟨x, hx, hxid⟩
      · obtain ⟨x, hx, hxid⟩ := hI.edgeTgt _ (parentOf_mem hq)
        rw [sp.nodes_eq, h']
        exact ⟨x, hx, hxid⟩
    · rw [sp.nodes_eq]; exact hI.nodupIds
    · rw [sp.nodes_eq]; exact hI.nodupKeys
    · intro x hx
      rw [sp.nodes_eq] at hx
      rw [count_all]
      exact hI.oneEdge x hx
    · intro x hx
      rw [sp.nodes_eq] at hx
      rw [depthOkB_iff]
      obtain ⟨ρ, s, h1, h2, h3⟩ := rooted_of_inv hI hx
      exact ⟨ρ, s, by rw [rootOf_all]; exact h1, by rw [chainLen_all]; exact h2,
        by rw [classSize_all]; exact h3⟩
  exact ⟨sp.nodes_eq, sp.nextId_eq, parent_all, count_all, isRoot_all,
    rootOf_all, chainLen_all, classSize_all, inv2⟩

/-! ## `lighterIds` bookkeeping -/

theorem lighterIds_cons_skip {rs : List Node} {h r : Node} (hr : r.id = h.id) :
    lighterIds (r :: rs) h = lighterIds rs h := by
  unfold lighterIds
  rw [List.filter_cons]
  simp [hr]

theorem lighterIds_cons_keep {rs : List Node} {h r : Node} (hr : r.id ≠ h.id) :
    lighterIds (r :: rs) h = r.id :: lighterIds rs h := by
  unfold lighterIds
  rw [List.filter_cons]
  simp [hr]

theorem mem_lighterIds_ne {rs : List Node} {h : Node} {j : Nat}
    (hj : j ∈ lighterIds rs h) : j ≠ h.id := by
  unfold lighterIds at hj
  obtain ⟨r, hr, hrj⟩ := List.mem_map.mp hj
  have := (List.mem_filter.mp hr).2
  subst hrj
  simpa using this

/-! ## The merge loop of `union` -/

structure MergePost (st : Store) (h : Node) (hw : Nat) (rs : List Node) (st2 : Store) : Prop where
  inv2 : Inv st2
  nextId_eq : st2.nextId = st.nextId
  map_id : st2.nodes.map Node.id = st.nodes.map Node.id
  map_key : (st2.nodes.map fun x => (x.ty, x.nm)) = st.nodes.map fun x => (x.ty, x.nm)
  getNode_other : ∀ i, i ≠ h.id → getNode st2 i = getNode st i
  getNode_h : getNode st2 h.id =
    some { h with weight := hw + ((rs.filter fun r => !(r.id == h.id)).map Node.weight).sum }
  parent_lighter : ∀ j ∈ lighterIds rs h, parentOf st2 j = some h.id
  parent_frame : ∀ j, j ∉ lighterIds rs h → parentOf st2 j = parentOf st j
  rootOf_char : ∀ i ρ, rootOf st i = some ρ →
    rootOf st2 i = some (if ρ ∈ lighterIds rs h then h.id else ρ)
  isRoot_lighter : ∀ j ∈ lighterIds rs h, isRoot st2 j = false
  isRoot_frame : ∀ j, j ∉ lighterIds rs h → isRoot st2 j = isRoot st j

theorem mergeLoop_spec : ∀ (rs : List Node) (st : Store) (hw : Nat) {h : Node} {st2 : Store},
    Inv st →
    parentOf st h.id = some h.id →
    getNode st h.id = some { h with weight := hw } →
    (∀ r ∈ rs, r.id ≠ h.id → parentOf st r.id = some r.id ∨ parentOf st r.id = some h.id) →
    mergeLoop st h hw rs = some st2 →
    MergePost st h hw rs st2 := by
  intro rs
  induction rs with
  | nil =>
    intro st hw h st2 hI hh hgn _ hml
    have hst : st2 = st := (Option.some.inj hml).symm
    subst hst
    refine ⟨hI, rfl, rfl, rfl, fun _ _ => rfl, by simpa using hgn, ?_, fun _ _ => rfl,
      ?_, ?_, fun _ _ => rfl⟩
    · intro j hj
      simp [lighterIds] at hj
    · intro i ρ hρ
      have : ρ ∉ lighterIds [] h := by simp [lighterIds]
      rw [if_neg this]
      exact hρ
    · intro j hj
      simp [lighterIds] at hj
  | cons r rs ih =>
    intro st hw h st2 hI hh hgn hall hml
    unfold mergeLoop at hml
    by_cases hrh : r.id = h.id
    · rw [if_pos (by simp [hrh] : (r.id == h.id) = true)] at hml
      have IH := ih st hw hI hh hgn
        (fun r' hr' => hall r' (List.mem_cons_of_mem _ hr')) hml
      have hfil : ((r :: rs).filter fun r' => !(r'.id == h.id))
          = rs.filter fun r' => !(r'.id == h.id) := by
        rw [List.filter_cons]
        simp [hrh]
      have hlig := @lighterIds_cons_skip rs _ _ hrh
      refine ⟨IH.inv2, IH.nextId_eq, IH.map_id, IH.map_key, IH.getNode_other, ?_,
        ?_, ?_, ?_, ?_, ?_⟩
      · rw [hfil]
        exact IH.getNode_h
      · intro j hj
        rw [hlig] at hj
        exact IH.parent_lighter j hj
      · intro j hj
        rw [hlig] at hj
        exact IH.parent_frame j hj
      · intro i ρ hρ
        rw [hlig]
        exact IH.rootOf_char i ρ hρ
      · intro j hj
        rw [hlig] at hj
        exact IH.isRoot_lighter j hj
      · intro j hj
        rw [hlig] at hj
        exact IH.isRoot_frame j hj
    · rw [if_neg (by simp [hrh] : ¬(r.id == h.id) = true)] at hml
      have hml2 : (match setParent (pushWeight st h.id (hw + r.weight)) r.id h.id with
          | none => none
          | some stx => mergeLoop stx h (hw + r.weight) rs) = some st2 := hml
      cases hsp : setParent (pushWeight st h.id (hw + r.weight)) r.id h.id with
      | none => rw [hsp] at hml2; cases hml2
      | some st'' =>
        rw [hsp] at hml2
        have hne : h.id ≠ r.id := fun hh' => hrh hh'.symm
        have hI1 : Inv (pushWeight st h.id (hw + r.weight)) := pushWeight_inv hI _ _
        have hhs1 : parentOf (pushWeight st h.id (hw + r.weight)) h.id = some h.id := hh
        have hgn'' : getNode st'' (pushWeight st h.id (hw + r.weight)).nextId = getNode st'' _ := rfl
        rcases hall r (List.mem_cons_self _ _) hrh with hself | hmerged
        · -- genuine merge step: `r` is still a root
          have hrs1 : parentOf (pushWeight st h.id (hw + r.weight)) r.id = some r.id := hself
          have rp := reparent_spec hI1 hrs1 hhs1 hne hsp
          have hI'' : Inv st'' := reparent_inv hI1 hrs1 hhs1 hne rp
          have hh'' : parentOf st'' h.id = some h.id := by
            rw [rp.parent_other h.id hne]
            exact hhs1
          have hgnh'' : getNode st'' h.id = some { h with weight := hw + r.weight } := by
            show getNode st'' h.id = _
            unfold getNode
            rw [rp.nodes_eq]
            have hpw := pushWeight_getNode_self st (hw + r.weight) hgn
            exact hpw
          have htail : ∀ r' ∈ rs, r'.id ≠ h.id →
              parentOf st'' r'.id = some r'.id ∨ parentOf st'' r'.id = some h.id := by
            intro r' hr' hr'h
            by_cases hr'r : r'.id = r.id
            · right
              rw [hr'r]
              exact rp.parent_r
            · rw [rp.parent_other r'.id hr'r]
              exact hall r' (List.mem_cons_of_mem _ hr') hr'h
          have IH := ih st'' (hw + r.weight) hI'' hh'' hgnh'' htail hml2
          have hlig := @lighterIds_cons_keep rs _ _ hrh
          have hnodes1 : st''.nodes.map Node.id = st.nodes.map Node.id := by
            rw [rp.nodes_eq]
            exact pushWeight_map_id st h.id (hw + r.weight)
          have hkeys1 : (st''.nodes.map fun x => (x.ty, x.nm))
              = st.nodes.map fun x => (x.ty, x.nm) := by
            rw [rp.nodes_eq]
            exact pushWeight_map_key st h.id (hw + r.weight)
          refine ⟨IH.inv2, ?_, ?_, ?_, ?_, ?_, ?_, ?_, ?_, ?_, ?_⟩
          · rw [IH.nextId_eq, rp.nextId_eq]
            rfl
          · rw [IH.map_id, hnodes1]
          · rw [IH.map_key, hkeys1]
          · intro i hi
            rw [IH.getNode_other i hi]
            show getNode st'' i = getNode st i
            unfold getNode
            rw [rp.nodes_eq]
            show getNode (pushWeight st h.id (hw + r.weight)) i = getNode st i
            exact pushWeight_getNode_ne st (hw + r.weight) hi
          · rw [IH.getNode_h]
            rw [List.filter_cons, if_pos (by simp [hrh] : (!(r.id == h.id)) = true),
              List.map_cons, List.sum_cons, ← Nat.add_assoc]
          · intro j hj
            rw [hlig] at hj
            rcases List.mem_cons.mp hj with hj' | hj'
            · subst hj'
              by_cases hjt : r.id ∈ lighterIds rs h
              · exact IH.parent_lighter r.id hjt
              · rw [IH.parent_frame r.id hjt]
                exact rp.parent_r
            · exact IH.parent_lighter j hj'
          · intro j hj
            rw [hlig] at hj
            have hjr : j ≠ r.id := fun hh' => hj (hh' ▸ List.mem_cons_self _ _)
            have hjt : j ∉ lighterIds rs h := fun hh' => hj (List.mem_cons_of_mem _ hh')
            rw [IH.parent_frame j hjt, rp.parent_other j hjr]
            rfl
          · intro i ρ hρ
            have hρ1 : rootOf (pushWeight st h.id (hw + r.weight)) i = some ρ := by
              rw [pushWeight_rootOf]
              exact hρ
            rw [hlig]
            by_cases hρr : ρ = r.id
            · have hmoved : rootOf st'' i = some h.id :=
                rp.rootOf_moved i (by rw [hρ1, hρr])
              have := IH.rootOf_char i h.id hmoved
              rw [if_pos (hρr ▸ List.mem_cons_self _ _)]
              rw [this]
              by_cases hht : h.id ∈ lighterIds rs h
              · rw [if_pos hht]
              · rw [if_neg hht]
            · have hstable : rootOf st'' i = some ρ := rp.rootOf_stable i ρ hρ1 hρr
              have := IH.rootOf_char i ρ hstable
              rw [this]
              by_cases hmem : ρ ∈ lighterIds rs h
              · rw [if_pos hmem, if_pos (List.mem_cons_of_mem _ hmem)]
              · rw [if_neg hmem, if_neg (by
                  intro hc
                  rcases List.mem_cons.mp hc with hc | hc
                  · exact hρr hc
                  · exact hmem hc)]
          · intro j hj
            rw [hlig] at hj
            rcases List.mem_cons.mp hj with hj' | hj'
            · subst hj'
              by_cases hjt : r.id ∈ lighterIds rs h
              · exact IH.isRoot_lighter r.id hjt
              · rw [IH.isRoot_frame r.id hjt]
                rw [show isRoot st'' r.id = false from rp.isRoot_r]
            · exact IH.isRoot_lighter j hj'
          · intro j hj
            rw [hlig] at hj
            have hjr : j ≠ r.id := fun hh' => hj (hh' ▸ List.mem_cons_self _ _)
            have hjt : j ∉ lighterIds rs h := fun hh' => hj (List.mem_cons_of_mem _ hh')
            rw [IH.isRoot_frame j hjt, rp.isRoot_other j hjr]
            rfl
        · -- `r` was already reparented onto `h` earlier in this loop
          have hq1 : parentOf (pushWeight st h.id (hw + r.weight)) r.id = some h.id := hmerged
          have np := setParent_noop_spec hI1 hq1 hsp
          have hI'' : Inv st'' := np.inv2
          have hh'' : parentOf st'' h.id = some h.id := by
            rw [np.parent_all h.id]
            exact hhs1
          have hgnh'' : getNode st'' h.id = some { h with weight := hw + r.weight } := by
            unfold getNode
            rw [np.nodes_eq]
            have hpw := pushWeight_getNode_self st (hw + r.weight) hgn
            exact hpw
          have htail : ∀ r' ∈ rs, r'.id ≠ h.id →
              parentOf st'' r'.id = some r'.id ∨ parentOf st'' r'.id = some h.id := by
            intro r' hr' hr'h
            rw [np.parent_all r'.id]
            exact hall r' (List.mem_cons_of_mem _ hr') hr'h
          have IH := ih st'' (hw + r.weight) hI'' hh'' hgnh'' htail hml2
          have hlig := @lighterIds_cons_keep rs _ _ hrh
          have hnodes1 : st''.nodes.map Node.id = st.nodes.map Node.id := by
            rw [np.nodes_eq]
            exact pushWeight_map_id st h.id (hw + r.weight)
          have hkeys1 : (st''.nodes.map fun x => (x.ty, x.nm))
              = st.nodes.map fun x => (x.ty, x.nm) := by
            rw [np.nodes_eq]
            exact pushWeight_map_key st h.id (hw + r.weight)
          have hparent_all'' : ∀ j, parentOf st'' j = parentOf st j := by
            intro j
            rw [np.parent_all j]
            rfl
          have hisRoot_all'' : ∀ j, isRoot st'' j = isRoot st j := by
            intro j
            rw [np.isRoot_all j]
            rfl
          have hrootOf_all'' : ∀ i, rootOf st'' i = rootOf st i := by
            intro i
            rw [np.rootOf_all i, pushWeight_rootOf]
          have hρ_ne_r : ∀ i ρ, rootOf st i = some ρ → ρ ≠ r.id := by
            intro i ρ hρ hρr
            have hself : parentOf st ρ = some ρ := rootOfAux_parent_self hρ
            rw [hρr] at hself
            rw [show parentOf st r.id = some h.id from hmerged] at hself
            exact hrh (Option.some.inj hself).symm
          have hisRoot_r_false : isRoot st r.id = false := by
            obtain ⟨x, hx, hxid⟩ := node_of_parentOf hI
              (show parentOf st r.id = some h.id from hmerged)
            have hone : countSrc st.edges r.id = 1 := by rw [← hxid]; exact hI.oneEdge x hx
            cases hb : isRoot st r.id with
            | false => rfl
            | true =>
              have := (isRoot_iff_parent_self hone).mp hb
              rw [show parentOf st r.id = some h.id from hmerged] at this
              exact absurd (Option.some.inj this).symm hrh
          refine ⟨IH.inv2, ?_, ?_, ?_, ?_, ?_, ?_, ?_, ?_, ?_, ?_⟩
          · rw [IH.nextId_eq, np.nextId_eq]
            rfl
          · rw [IH.map_id, hnodes1]
          · rw [IH.map_key, hkeys1]
          · intro i hi
            rw [IH.getNode_other i hi]
            unfold getNode
            rw [np.nodes_eq]
            show getNode (pushWeight st h.id (hw + r.weight)) i = getNode st i
            exact pushWeight_getNode_ne st (hw + r.weight) hi
          · rw [IH.getNode_h]
            rw [List.filter_cons, if_pos (by simp [hrh] : (!(r.id == h.id)) = true),
              List.map_cons, List.sum_cons, ← Nat.add_assoc]
          · intro j hj
            rw [hlig] at hj
            rcases List.mem_cons.mp hj with hj' | hj'
            · subst hj'
              by_cases hjt : r.id ∈ lighterIds rs h
              · exact IH.parent_lighter r.id hjt
              · rw [IH.parent_frame r.id hjt, hparent_all'' r.id]
                exact hmerged
            · exact IH.parent_lighter j hj'
          · intro j hj
            rw [hlig] at hj
            have hjt : j ∉ lighterIds rs h := fun hh' => hj (List.mem_cons_of_mem _ hh')
            rw [IH.parent_frame j hjt, hparent_all'' j]
          · intro i ρ hρ
            have hstable : rootOf st'' i = some ρ := by
              rw [hrootOf_all'' i]
              exact hρ
            have := IH.rootOf_char i ρ hstable
            rw [hlig, this]
            have hρr := hρ_ne_r i ρ hρ
            by_cases hmem : ρ ∈ lighterIds rs h
            · rw [if_pos hmem, if_pos (List.mem_cons_of_mem _ hmem)]
            · rw [if_neg hmem, if_neg (by
                intro hc
                rcases List.mem_cons.mp hc with hc | hc
                · exact hρr hc
                · exact hmem hc)]
          · intro j hj
            rw [hlig] at hj
            rcases List.mem_cons.mp hj with hj' | hj'
            · subst hj'
              by_cases hjt : r.id ∈ lighterIds rs h
              · exact IH.isRoot_lighter r.id hjt
              · rw [IH.isRoot_frame r.id hjt, hisRoot_all'' r.id]
                exact hisRoot_r_false
            · exact IH.isRoot_lighter j hj'
          · intro j hj
            rw [hlig] at hj
            have hjt : j ∉ lighterIds rs h := fun hh' => hj (List.mem_cons_of_mem _ hh')
            rw [IH.isRoot_frame j hjt, hisRoot_all'' j]

/-! ## Counting and lookup transfer along weight-only node updates -/

theorem countP_eq_of_map_id : ∀ {l2 l1 : List Node},
    l2.map Node.id = l1.map Node.id → ∀ p : Nat → Bool,
    (l2.countP fun y => p y.id) = l1.countP fun y => p y.id := by
  intro l2
  induction l2 with
  | nil =>
    intro l1 h p
    cases l1 with
    | nil => rfl
    | cons b l1 => cases h
  | cons a l2 ih =>
    intro l1 h p
    cases l1 with
    | nil => cases h
    | cons b l1 =>
      rw [List.map_cons, List.map_cons] at h
      have h1 : a.id = b.id := by
        have := congrArg (fun l => l.headD 0) h
        simpa using this
      have h2 : l2.map Node.id = l1.map Node.id := by
        have := congrArg List.tail h
        simpa using this
      rw [List.countP_cons, List.countP_cons, ih h2 p, h1]

theorem find?_key_id : ∀ {l2 l1 : List Node},
    l2.map Node.id = l1.map Node.id →
    (l2.map fun x => (x.ty, x.nm)) = (l1.map fun x => (x.ty, x.nm)) →
    ∀ t n : String,
    ((l2.find? fun x => x.ty == t && x.nm == n).map Node.id)
      = (l1.find? fun x => x.ty == t && x.nm == n).map Node.id := by
  intro l2
  induction l2 with
  | nil =>
    intro l1 hid hkey t n
    cases l1 with
    | nil => rfl
    | cons b l1 => cases hid
  | cons a l2 ih =>
    intro l1 hid hkey t n
    cases l1 with
    | nil => cases hid
    | cons b l1 =>
      rw [List.map_cons, List.map_cons] at hid hkey
      have h1 : a.id = b.id := by
        have := congrArg (fun l => l.headD 0) hid
        simpa using this
      have h1k : (a.ty, a.nm) = (b.ty, b.nm) := by
        have := congrArg (fun l => l.headD ("", "")) hkey
        simpa using this
      have h2 : l2.map Node.id = l1.map Node.id := by
        have := congrArg List.tail hid
        simpa using this
      have h2k : (l2.map fun x => (x.ty, x.nm)) = l1.map fun x => (x.ty, x.nm) := by
        have := congrArg List.tail hkey
        simpa using this
      have hty : a.ty = b.ty := congrArg Prod.fst h1k
      have hnm : a.nm = b.nm := congrArg Prod.snd h1k
      by_cases hpa : (a.ty == t && a.nm == n) = true
      · have e2 : List.find? (fun x => x.ty == t && x.nm == n) (a :: l2) = some a :=
          List.find?_cons_of_pos _ hpa
        have e1 : List.find? (fun x => x.ty == t && x.nm == n) (b :: l1) = some b :=
          List.find?_cons_of_pos _ (by rw [← hty, ← hnm]; exact hpa)
        rw [e2, e1]
        simp [h1]
      · have e2 : List.find? (fun x => x.ty == t && x.nm == n) (a :: l2)
            = List.find? (fun x => x.ty == t && x.nm == n) l2 :=
          List.find?_cons_of_neg _ hpa
        have e1 : List.find? (fun x => x.ty == t && x.nm == n) (b :: l1)
            = List.find? (fun x => x.ty == t && x.nm == n) l1 :=
          List.find?_cons_of_neg _ (by rw [← hty, ← hnm]; exact hpa)
        rw [e2, e1]
        exact ih h2 h2k t n

/-- Is the root of `i` one of the ids in `L`? -/
def rootInB (st : Store) (L : List Nat) (i : Nat) : Bool :=
  match rootOf st i with
  | some ρ => L.contains ρ
  | none => false

theorem rootInB_nil (st : Store) (i : Nat) : rootInB st [] i = false := by
  unfold rootInB
  cases rootOf st i <;> simp

theorem rootInB_cons (st : Store) (ρ : Nat) (L : List Nat) (i : Nat) :
    rootInB st (ρ :: L) i = ((rootOf st i == some ρ) || rootInB st L i) := by
  unfold rootInB
  cases h : rootOf st i with
  | none => simp
  | some ρy =>
    show (ρ :: L).contains ρy = ((some ρy == some ρ) || L.contains ρy)
    rw [List.contains_cons]
    have : (some ρy == some ρ) = (ρy == ρ) := by
      cases hb : ρy == ρ <;> simp_all
    rw [this]

theorem countP_rootIn_sum (st1 : Store) (l : List Node) :
    ∀ L : List Nat, nodupIdsB L = true →
    (l.countP fun y => rootInB st1 L y.id)
      = (L.map fun ρ => l.countP fun y => rootOf st1 y.id == some ρ).sum := by
  intro L
  induction L with
  | nil =>
    intro _
    rw [List.map_nil, List.sum_nil, List.countP_eq_zero]
    intro y _
    rw [rootInB_nil]
    simp
  | cons ρ L ih =>
    intro hnd
    unfold nodupIdsB at hnd
    rw [Bool.and_eq_true] at hnd
    obtain ⟨hρL, hnd'⟩ := hnd
    have hρnotin : ρ ∉ L := by
      intro hmem
      rw [Bool.not_eq_eq_eq_not] at hρL
      have : L.contains ρ = true := List.elem_iff.mpr hmem
      rw [this] at hρL
      cases hρL
    have hcongr : (l.countP fun y => rootInB st1 (ρ :: L) y.id)
        = l.countP fun y => ((rootOf st1 y.id == some ρ) || rootInB st1 L y.id) := by
      apply List.countP_congr
      intro y _
      rw [rootInB_cons]
    rw [hcongr, countP_or_disj, List.map_cons, List.sum_cons, ih hnd']
    intro y _ ⟨h1, h2⟩
    rw [beq_iff_eq] at h1
    unfold rootInB at h2
    rw [h1] at h2
    exact hρnotin (List.elem_iff.mp h2)

/-! ## `union`: composition -/

theorem union_extract {st st2 : Store} {objs : List (String × String)}
    (hu : union st objs = some st2) :
    ∃ roots st1 h, findAll st objs = some (roots, st1) ∧
      maxByWeight roots = some h ∧ mergeLoop st1 h h.weight roots = some st2 := by
  unfold union at hu
  cases hfa : findAll st objs with
  | none => rw [hfa] at hu; cases hu
  | some pr =>
    obtain ⟨roots, st1⟩ := pr
    rw [hfa] at hu
    have hu2 : (match maxByWeight roots with
        | none => none
        | some h => mergeLoop st1 h h.weight roots) = some st2 := hu
    cases hmax : maxByWeight roots with
    | none => rw [hmax] at hu2; cases hu2
    | some h =>
      rw [hmax] at hu2
      exact ⟨roots, st1, h, rfl, hmax, hu2⟩

structure UnionFacts (st : Store) (objs : List (String × String)) (st2 : Store)
    (roots : List Node) (st1 : Store) (h : Node) : Prop where
  fa : FindAllPost st objs roots st1
  mp : MergePost st1 h h.weight roots st2
  hmem : h ∈ roots
  hmax_le : ∀ r ∈ roots, r.weight ≤ h.weight
  hnotin : h.id ∉ lighterIds roots h
  lighter_mem : ∀ r ∈ roots, r.id ≠ h.id → r.id ∈ lighterIds roots h

theorem union_facts {st st1 st2 : Store} {objs : List (String × String)}
    {roots : List Node} {h : Node} (hI : Inv st)
    (hfa : findAll st objs = some (roots, st1))
    (hmax : maxByWeight roots = some h)
    (hml : mergeLoop st1 h h.weight roots = some st2) :
    UnionFacts st objs st2 roots st1 h := by
  have fa := findAll_spec objs hI hfa
  obtain ⟨hle, hmem, _⟩ := maxByWeight_spec hmax
  have hgn : getNode st1 h.id = some { h with weight := h.weight } :=
    fa.roots_stored h hmem
  have hall : ∀ r ∈ roots, r.id ≠ h.id →
      parentOf st1 r.id = some r.id ∨ parentOf st1 r.id = some h.id :=
    fun r hr _ => Or.inl (fa.roots_root r hr)
  have mp := mergeLoop_spec roots st1 h.weight fa.inv (fa.roots_root h hmem) hgn hall hml
  refine ⟨fa, mp, hmem, hle, ?_, ?_⟩
  · intro hmem'
    exact mem_lighterIds_ne hmem' rfl
  · intro r hr hne
    unfold lighterIds
    exact List.mem_map.mpr ⟨r, List.mem_filter.mpr ⟨hr, by simp [hne]⟩, rfl⟩

theorem union_inv {st st2 : Store} {objs : List (String × String)} (hI : Inv st)
    (hu : union st objs = some st2) : Inv st2 := by
  obtain ⟨roots, st1, h, hfa, hmax, hml⟩ := union_extract hu
  exact (union_facts hI hfa hmax hml).mp.inv2

/-- After a successful `union`, every pair of the call resolves, via `lookup`,
to an element whose root is the merge target. -/
theorem union_pairs_rooted {st st1 st2 : Store} {objs : List (String × String)}
    {roots : List Node} {h : Node} (hI : Inv st)
    (uf : UnionFacts st objs st2 roots st1 h) :
    ∀ p ∈ objs, ∃ e2, lookup st2 p.1 p.2 = some e2 ∧ rootOf st2 e2.id = some h.id := by
  intro p hp
  obtain ⟨e, he, r, hr, hre⟩ := uf.fa.pairs_root p hp
  have hmapped := find?_key_id uf.mp.map_id uf.mp.map_key p.1 p.2
  have he1 : (lookup st1 p.1 p.2).map Node.id = some e.id := by rw [he]; rfl
  have he2 : (lookup st2 p.1 p.2).map Node.id = some e.id := by
    show ((st2.nodes.find? fun x => x.ty == p.1 && x.nm == p.2).map Node.id) = some e.id
    rw [hmapped]
    exact he1
  cases hl2 : lookup st2 p.1 p.2 with
  | none =>
    rw [hl2] at he2
    cases he2
  | some e2 =>
    rw [hl2] at he2
    have heid : e2.id = e.id := by simpa using he2
    refine ⟨e2, rfl, ?_⟩
    rw [heid]
    have hchar := uf.mp.rootOf_char e.id r.id hre
    by_cases hrh : r.id = h.id
    · rw [hchar, if_neg (by rw [hrh]; exact uf.hnotin), hrh]
    · rw [hchar, if_pos (uf.lighter_mem r hr hrh)]

theorem find_id_of_lookup {st : Store} (hI : Inv st) {t n : String} {e : Node} {ρ : Nat}
    (hlk : lookup st t n = some e) (hρ : rootOf st e.id = some ρ) :
    ∃ n2 st3, find st t n = some (n2, st3) ∧ n2.id = ρ := by
  obtain ⟨n2, st3, hf⟩ := find_total hI t n
  have fp := find_spec hI hf
  exact ⟨n2, st3, hf, fp.rn_id_root e ρ hlk hρ⟩

/-- A successful `union` whose resolved non-heaviest roots are pairwise
distinct preserves the weight invariant. -/
theorem union_wc {st st2 : Store} {objs : List (String × String)} (hI : Inv st)
    (hwc : WeightConservation st) (hok : unionOkB st objs = true)
    (hu : union st objs = some st2) : WeightConservation st2 := by
  obtain ⟨roots, st1, h, hfa, hmax, hml⟩ := union_extract hu
  have uf := union_facts hI hfa hmax hml
  have fa := uf.fa
  have mp := uf.mp
  have hwc1 : WeightConservation st1 := fa.wc_pres hwc
  have hnd : nodupIdsB (lighterIds roots h) = true := by
    unfold unionOkB at hok
    rw [hfa] at hok
    have hok2 : (match maxByWeight roots with
        | none => true
        | some h => nodupIdsB (lighterIds roots h)) = true := hok
    rw [hmax] at hok2
    exact hok2
  have hroot_st1 : ∀ r ∈ roots, isRoot st1 r.id = true := by
    intro r hr
    have hmem1 : r ∈ st1.nodes := getNode_mem (fa.roots_stored r hr)
    have hone : countSrc st1.edges r.id = 1 := fa.inv.oneEdge r hmem1
    exact (isRoot_iff_parent_self hone).mpr (fa.roots_root r hr)
  have hw_class : ∀ r ∈ roots, r.weight = classSize st1 r.id := by
    intro r hr
    exact hwc1 r (getNode_mem (fa.roots_stored r hr)) (hroot_st1 r hr)
  have hWsum : ((roots.filter fun r => !(r.id == h.id)).map Node.weight).sum
      = ((lighterIds roots h).map fun ρ => classSize st1 ρ).sum := by
    show ((roots.filter fun r => !(r.id == h.id)).map Node.weight).sum
      = (((roots.filter fun r => !(r.id == h.id)).map Node.id).map
          fun ρ => classSize st1 ρ).sum
    rw [List.map_map]
    apply congrArg List.sum
    apply List.map_congr_left
    intro r hrl
    have hr : r ∈ roots := (List.mem_filter.mp hrl).1
    show r.weight = classSize st1 r.id
    exact hw_class r hr
  have hcs2 : classSize st2 h.id
      = classSize st1 h.id + ((lighterIds roots h).map fun ρ => classSize st1 ρ).sum := by
    have h1 : classSize st2 h.id
        = st1.nodes.countP fun y => rootOf st2 y.id == some h.id :=
      countP_eq_of_map_id mp.map_id (fun i => rootOf st2 i == some h.id)
    have hpt : (st1.nodes.countP fun y => rootOf st2 y.id == some h.id)
        = st1.nodes.countP fun y =>
            ((rootOf st1 y.id == some h.id) || rootInB st1 (lighterIds roots h) y.id) := by
      apply List.countP_congr
      intro y hy
      obtain ⟨ρy, sy, hρy, _, _⟩ := rooted_of_inv fa.inv hy
      have hchar := mp.rootOf_char y.id ρy hρy
      have hrib : rootInB st1 (lighterIds roots h) y.id
          = (lighterIds roots h).contains ρy := by
        unfold rootInB
        rw [hρy]
      rw [hchar, hρy, hrib]
      by_cases hmem : ρy ∈ lighterIds roots h
      · rw [if_pos hmem]
        have hc : (lighterIds roots h).contains ρy = true := List.elem_iff.mpr hmem
        rw [hc]
        simp
      · rw [if_neg hmem]
        have hc : (lighterIds roots h).contains ρy = false := by
          cases hb : (lighterIds roots h).contains ρy with
          | false => rfl
          | true => exact absurd (List.elem_iff.mp hb) hmem
        rw [hc]
        simp
    have hdisj : ∀ y ∈ st1.nodes,
        ¬((rootOf st1 y.id == some h.id) = true ∧
          rootInB st1 (lighterIds roots h) y.id = true) := by
      intro y hy ⟨h1', h2'⟩
      rw [beq_iff_eq] at h1'
      unfold rootInB at h2'
      rw [h1'] at h2'
      exact mem_lighterIds_ne (List.elem_iff.mp h2') rfl
    rw [h1, hpt, countP_or_disj hdisj, countP_rootIn_sum st1 st1.nodes _ hnd]
    rfl
  have hcs_other : ∀ ρ', ρ' ≠ h.id → ρ' ∉ lighterIds roots h →
      classSize st2 ρ' = classSize st1 ρ' := by
    intro ρ' hρh hρL
    have h1 : classSize st2 ρ'
        = st1.nodes.countP fun y => rootOf st2 y.id == some ρ' :=
      countP_eq_of_map_id mp.map_id (fun i => rootOf st2 i == some ρ')
    rw [h1]
    apply List.countP_congr
    intro y hy
    obtain ⟨ρy, sy, hρy, _, _⟩ := rooted_of_inv fa.inv hy
    have hchar := mp.rootOf_char y.id ρy hρy
    rw [hchar, hρy]
    by_cases hmem : ρy ∈ lighterIds roots h
    · rw [if_pos hmem]
      constructor
      · intro h'
        rw [beq_iff_eq] at h'
        exact absurd (Option.some.inj h').symm hρh
      · intro h'
        rw [beq_iff_eq] at h'
        have : ρy = ρ' := Option.some.inj h'
        rw [this] at hmem
        exact absurd hmem hρL
    · rw [if_neg hmem]
  intro x hx hxroot
  have hgx : getNode st2 x.id = some x := getNode_of_mem mp.inv2.nodupIds hx
  by_cases hxl : x.id ∈ lighterIds roots h
  · rw [mp.isRoot_lighter x.id hxl] at hxroot
    cases hxroot
  · rw [mp.isRoot_frame x.id hxl] at hxroot
    by_cases hxh : x.id = h.id
    · have hx2 : some x = some { h with weight := h.weight
          + ((roots.filter fun r => !(r.id == h.id)).map Node.weight).sum } := by
        rw [← hgx, hxh, mp.getNode_h]
      have hxw : x.weight = h.weight
          + ((roots.filter fun r => !(r.id == h.id)).map Node.weight).sum := by
        rw [Option.some.inj hx2]
      have hhw : h.weight = classSize st1 h.id := by
        refine hwc1 h (getNode_mem (fa.roots_stored h uf.hmem)) ?_
        rw [← hxh]
        exact hxroot
      rw [hxw, hhw, hWsum, hxh, hcs2]
    · have hgx1 : getNode st1 x.id = some x := by
        rw [← mp.getNode_other x.id hxh]
        exact hgx
      have hx1 : x ∈ st1.nodes := getNode_mem hgx1
      rw [hcs_other x.id hxh hxl]
      exact hwc1 x hx1 hxroot

/-! ## Streams and operation sequences -/

theorem stream_inv : ∀ (rows : List (List (String × String))) {st st2 : Store},
    Inv st → union_from_stream st rows = some st2 → Inv st2 := by
  intro rows
  induction rows with
  | nil =>
    intro st st2 hI hs
    rw [show st2 = st from (Option.some.inj hs).symm]
    exact hI
  | cons row rest ih =>
    intro st st2 hI hs
    unfold union_from_stream at hs
    cases hu : union st (filterRow row) with
    | none => rw [hu] at hs; cases hs
    | some st1 =>
      rw [hu] at hs
      exact ih (union_inv hI hu) hs

theorem stream_wc : ∀ (rows : List (List (String × String))) {st st2 : Store},
    Inv st → WeightConservation st → streamOkB st rows = true →
    union_from_stream st rows = some st2 → WeightConservation st2 := by
  intro rows
  induction rows with
  | nil =>
    intro st st2 _ hwc _ hs
    rw [show st2 = st from (Option.some.inj hs).symm]
    exact hwc
  | cons row rest ih =>
    intro st st2 hI hwc hok hs
    unfold union_from_stream at hs
    unfold streamOkB at hok
    rw [Bool.and_eq_true] at hok
    obtain ⟨hok1, hok2⟩ := hok
    cases hu : union st (filterRow row) with
    | none => rw [hu] at hs; cases hs
    | some st1 =>
      rw [hu] at hs
      have hok2' : (match union st (filterRow row) with
          | none => true
          | some st1 => streamOkB st1 rest) = true := hok2
      rw [hu] at hok2'
      exact ih (union_inv hI hu) (union_wc hI hwc hok1 hu) hok2' hs

theorem runOp_inv {st st2 : Store} {op : Op} (hI : Inv st)
    (hr : runOp st op = some st2) : Inv st2 := by
  cases op with
  | findOp t n =>
    have hr2 : (find st t n).map Prod.snd = some st2 := hr
    cases hf : find st t n with
    | none => rw [hf] at hr2; cases hr2
    | some pr =>
      rw [hf] at hr2
      have : st2 = pr.2 := (Option.some.inj hr2).symm
      subst this
      exact (find_spec hI (by rw [hf] : find st t n = some (pr.1, pr.2))).inv
  | unionOp objs => exact union_inv hI hr
  | streamOp s => exact stream_inv s hI hr

theorem runOp_wc {st st2 : Store} {op : Op} (hI : Inv st)
    (hwc : WeightConservation st) (hok : opOkB st op = true)
    (hr : runOp st op = some st2) : WeightConservation st2 := by
  cases op with
  | findOp t n =>
    have hr2 : (find st t n).map Prod.snd = some st2 := hr
    cases hf : find st t n with
    | none => rw [hf] at hr2; cases hr2
    | some pr =>
      rw [hf] at hr2
      have : st2 = pr.2 := (Option.some.inj hr2).symm
      subst this
      exact (find_spec hI (by rw [hf] : find st t n = some (pr.1, pr.2))).wc_pres hwc
  | unionOp objs => exact union_wc hI hwc hok hr
  | streamOp s => exact stream_wc s hI hwc hok hr

theorem runOps_inv : ∀ (ops : List Op) {st st2 : Store},
    Inv st → runOps st ops = some st2 → Inv st2 := by
  intro ops
  induction ops with
  | nil =>
    intro st st2 hI hr
    rw [show st2 = st from (Option.some.inj hr).symm]
    exact hI
  | cons op ops ih =>
    intro st st2 hI hr
    unfold runOps at hr
    cases h1 : runOp st op with
    | none => rw [h1] at hr; cases hr
    | some st1 =>
      rw [h1] at hr
      exact ih (runOp_inv hI h1) hr

theorem runOps_wc : ∀ (ops : List Op) {st st2 : Store},
    Inv st → WeightConservation st → opsOkB st ops = true →
    runOps st ops = some st2 → WeightConservation st2 := by
  intro ops
  induction ops with
  | nil =>
    intro st st2 _ hwc _ hr
    rw [show st2 = st from (Option.some.inj hr).symm]
    exact hwc
  | cons op ops ih =>
    intro st st2 hI hwc hok hr
    unfold runOps at hr
    unfold opsOkB at hok
    rw [Bool.and_eq_true] at hok
    obtain ⟨hok1, hok2⟩ := hok
    cases h1 : runOp st op with
    | none => rw [h1] at hr; cases hr
    | some st1 =>
      rw [h1] at hr
      have hok2' : (match runOp st op with
          | none => true
          | some st1 => opsOkB st1 ops) = true := hok2
      rw [h1] at hok2'
      exact ih (runOp_inv hI h1) (runOp_wc hI hwc hok1 h1) hok2' hr

theorem inv_empty : Inv emptyStore := by decide

theorem wc_empty : WeightConservation emptyStore := by decide

/-! ## The claims -/

/-- C1: for every finite non-empty sequence of `(type, name)` pairs, after a
successful `union` on that sequence, a subsequent `find` on each pair of the
sequence returns a node carrying one common id. -/
theorem C1_union_find_same_id {st st2 : Store} {objs : List (String × String)}
    (hI : Inv st) (hne : objs ≠ []) (hu : union st objs = some st2) :
    ∃ gid, ∀ p ∈ objs, ∃ n2 st3, find st2 p.1 p.2 = some (n2, st3) ∧ n2.id = gid := by
  obtain ⟨roots, st1, h, hfa, hmax, hml⟩ := union_extract hu
  have uf := union_facts hI hfa hmax hml
  refine ⟨h.id, ?_⟩
  intro p hp
  obtain ⟨e2, hl2, hr2⟩ := union_pairs_rooted hI uf p hp
  exact find_id_of_lookup uf.mp.inv2 hl2 hr2

/-- A run in which one `union` call resolves the same non-heaviest class from
two different pairs: the duplicated class weight is added twice. -/
def c2ops : List Op :=
  [Op.unionOp [("y", "1"), ("y", "2")],
   Op.unionOp [("x", "1"), ("x", "1"), ("y", "1")]]

/-- The store those operations produce. -/
def c2st : Store := (runOps emptyStore c2ops).getD emptyStore

/-- C2 counterexample: after the concrete run `c2ops` from the empty store,
the surviving root's `weight` does not equal the number of element nodes it
roots, refuting weight conservation for runs in which a single `union` call
holds two pairs of one non-heaviest class. -/
theorem C2_weight_conservation_cex :
    runOps emptyStore c2ops = some c2st ∧ ¬ WeightConservation c2st :=
  ⟨rfl, by decide⟩

/-- C2 amended: weight conservation does hold for every run from the empty
store in which no `union` call resolves a non-heaviest class from two
different pairs (side condition `opsOkB`). -/
theorem C2_weight_conservation_amended {ops : List Op} {st : Store}
    (hok : opsOkB emptyStore ops = true) (hrun : runOps emptyStore ops = some st) :
    WeightConservation st :=
  runOps_wc ops inv_empty wc_empty hok hrun

/-- A stream record whose only identifier value is falsy. -/
def c3row : List (String × String) := [("email", "")]

/-- C3 counterexample: a record with zero non-empty identifiers does not make
`union_from_stream` a no-op; the call fails (Python: `max([])` raises
`ValueError`), so it neither completes nor leaves the store unchanged. -/
theorem C3_empty_record_cex :
    union_from_stream emptyStore [c3row] = none ∧
    union_from_stream emptyStore [c3row] ≠ some emptyStore :=
  ⟨rfl, fun hcon => Option.noConfusion
    ((rfl : (none : Option Store) = union_from_stream emptyStore [c3row]).trans hcon)⟩

/-- C3 amended: a stream record in which every identifier value is falsy makes
`union_from_stream` fail on any store, whatever records follow. -/
theorem C3_empty_record_amended {st : Store} {row : List (String × String)}
    {rest : List (List (String × String))} (hrow : filterRow row = []) :
    union_from_stream st (row :: rest) = none := by
  have hnone : union st (filterRow row) = none := by
    rw [hrow]
    rfl
  show (match union st (filterRow row) with
    | none => none
    | some st1 => union_from_stream st1 rest) = none
  rw [hnone]

/-- C4: a `find` on an existing non-root element never reparents the root the
call returns: the root keeps its self-loop, no node's root status changes, and
every stored node still resolves to a root (no cycle besides self-loops). -/
theorem C4_find_preserves_root {st st' : Store} {t n : String} {e rn : Node}
    (hI : Inv st) (hlk : lookup st t n = some e) (hnr : isRoot st e.id = false)
    (hf : find st t n = some (rn, st')) :
    parentOf st' rn.id = some rn.id ∧ isRoot st' rn.id = true ∧
    (∀ x ∈ st.nodes, isRoot st' x.id = isRoot st x.id) ∧
    (∀ x ∈ st'.nodes, (rootOf st' x.id).isSome) := by
  have fp := find_spec hI hf
  refine ⟨fp.root_self, ?_, fp.isRoot_pres, ?_⟩
  · exact (isRoot_iff_parent_self
      (fp.inv.oneEdge rn (getNode_mem fp.rn_stored))).mpr fp.root_self
  · intro x hx
    obtain ⟨ρ, s, h1, _, _⟩ := rooted_of_inv fp.inv hx
    rw [h1]
    rfl

/-- C5: after any finite sequence of `find`, `union` and `union_from_stream`
operations run from the empty store, every stored element node has exactly one
outgoing parent edge. -/
theorem C5_one_parent_edge {ops : List Op} {st : Store}
    (hrun : runOps emptyStore ops = some st) :
    ∀ x ∈ st.nodes, countSrc st.edges x.id = 1 :=
  fun x hx => (runOps_inv ops inv_empty hrun).oneEdge x hx

/-- C6: after a `find` on an existing non-root element, every stored node from
which the returned root was reachable along parent edges now has its parent
edge pointing directly at that root. -/
theorem C6_compression_flattens {st st' : Store} {t n : String} {e rn : Node}
    (hI : Inv st) (hlk : lookup st t n = some e) (hnr : isRoot st e.id = false)
    (hf : find st t n = some (rn, st')) :
    ∀ a ∈ st.nodes, Reaches st a.id rn.id → parentOf st' a.id = some rn.id := by
  obtain ⟨ρ, s, hρ, _, _⟩ := rooted_of_inv hI (lookup_mem hlk)
  have hrr : parentOf st ρ = some ρ := rootOfAux_parent_self hρ
  obtain ⟨x, hx, hxid⟩ := node_of_parentOf hI hrr
  have hg : getNode st ρ = some x := by
    rw [← hxid]
    exact getNode_of_mem hI.nodupIds hx
  rw [find_eq_compress hlk hnr hρ hg] at hf
  cases hc : compress st ρ (ancestorsOf st ρ) with
  | none => rw [hc] at hf; cases hf
  | some st1 =>
    rw [hc] at hf
    have h1 := Option.some.inj hf
    have hrn : rn = x := (congrArg Prod.fst h1).symm
    have hst : st' = st1 := (congrArg Prod.snd h1).symm
    have cf := compress_facts hI hrr hc
    intro a ha hR
    have hrnρ : rn.id = ρ := by rw [hrn, hxid]
    rw [hst, hrnρ]
    rw [hrnρ] at hR
    obtain ⟨ρa, sa, hρa, _, _⟩ := rooted_of_inv hI ha
    have hρρa : ρ = ρa := root_unique_of_reaches hρa hR hrr
    exact cf.parent_class a.id (by rw [← hρρa] at hρa; exact hρa)

/-- The creation branch of `find` makes the new node a class of exactly one
element. -/
theorem create_classSize_one {st : Store} {t n : String} (hI : Inv st)
    (hlk : lookup st t n = none) :
    classSize ⟨st.nodes ++ [⟨st.nextId, t, n, 1⟩],
      st.edges ++ [(st.nextId, st.nextId)], st.nextId + 1⟩ st.nextId = 1 := by
  have hf := find_eq_create hlk
  have fp := find_spec hI hf
  set st' : Store := ⟨st.nodes ++ [⟨st.nextId, t, n, 1⟩],
      st.edges ++ [(st.nextId, st.nextId)], st.nextId + 1⟩ with hst'
  have hroot_new : rootOf st' st.nextId = some st.nextId := rootOf_self fp.root_self
  show st'.nodes.countP (fun y => rootOf st' y.id == some st.nextId) = 1
  have hnodes : st'.nodes = st.nodes ++ [⟨st.nextId, t, n, 1⟩] := rfl
  rw [hnodes, List.countP_append]
  have hback : List.countP (fun y : Node => rootOf st' y.id == some st.nextId)
      [⟨st.nextId, t, n, 1⟩] = 1 := by
    rw [List.countP_cons]
    simp [hroot_new]
  have hfront : List.countP (fun y : Node => rootOf st' y.id == some st.nextId)
      st.nodes = 0 := by
    rw [List.countP_eq_zero]
    intro y hy
    obtain ⟨ρy, sy, hρy, _, _⟩ := rooted_of_inv hI hy
    have hpres := fp.rootOf_pres y hy
    obtain ⟨z, hz, hzid⟩ := node_of_parentOf hI (rootOfAux_parent_self hρy)
    have hlt : ρy < st.nextId := by
      have := hI.idsLt z hz
      omega
    rw [hpres, hρy]
    simp
    omega
  rw [hback, hfront]

/-- C7: for a `(type, name)` pair with no stored element, `find` creates
exactly one new node, of weight 1, holding a self-loop parent edge: it is its
own root and forms a class of size one, and `find` returns it. -/
theorem C7_find_creates_singleton {st : Store} {t n : String} (hI : Inv st)
    (hlk : lookup st t n = none) :
    ∃ node st', find st t n = some (node, st') ∧
      node = ⟨st.nextId, t, n, 1⟩ ∧ node.weight = 1 ∧
      st'.nodes = st.nodes ++ [node] ∧
      st'.edges = st.edges ++ [(node.id, node.id)] ∧
      parentOf st' node.id = some node.id ∧ isRoot st' node.id = true ∧
      rootOf st' node.id = some node.id ∧ classSize st' node.id = 1 := by
  have hf := find_eq_create hlk
  have fp := find_spec hI hf
  refine ⟨⟨st.nextId, t, n, 1⟩,
    ⟨st.nodes ++ [⟨st.nextId, t, n, 1⟩],
      st.edges ++ [(st.nextId, st.nextId)], st.nextId + 1⟩,
    hf, rfl, rfl, rfl, rfl, fp.root_self, ?_,
    rootOf_self fp.root_self, create_classSize_one hI hlk⟩
  exact (isRoot_iff_parent_self
    (fp.inv.oneEdge _ (getNode_mem fp.rn_stored))).mpr fp.root_self

/-- C8: the merge target of a `union` call is the first root of maximal
weight, in the order the pairs were given, and every other root is reparented
onto it. -/
theorem C8_first_max_target {st st1 st2 : Store} {objs : List (String × String)}
    {roots : List Node} {h : Node} (hI : Inv st)
    (hfa : findAll st objs = some (roots, st1))
    (hmax : maxByWeight roots = some h)
    (hu : union st objs = some st2) :
    (∀ r ∈ roots, r.weight ≤ h.weight) ∧
    (∃ i, i < roots.length ∧ roots[i]? = some h ∧
      ∀ j, j < i → ∀ x, roots[j]? = some x → x.weight < h.weight) ∧
    (∀ r ∈ roots, r.id ≠ h.id → parentOf st2 r.id = some h.id) := by
  obtain ⟨roots', st1', h', hfa', hmax', hml'⟩ := union_extract hu
  rw [hfa] at hfa'
  have hd := Option.some.inj hfa'
  have hr1 : roots = roots' := congrArg Prod.fst hd
  have hs1 : st1 = st1' := congrArg Prod.snd hd
  subst hr1
  subst hs1
  rw [hmax] at hmax'
  have hh := Option.some.inj hmax'
  subst hh
  have uf := union_facts hI hfa hmax hml'
  obtain ⟨hle, hmem, i, hi, hget, hfirst⟩ := maxByWeight_spec hmax
  exact ⟨hle, ⟨i, hi, hget, hfirst⟩, fun r hr hne =>
    uf.mp.parent_lighter r.id (uf.lighter_mem r hr hne)⟩

/-- C9: a `union` whose pairs all already resolve to one class changes no
element's root and no stored node (ids, keys and weights included): union is
idempotent on an already-merged class. -/
theorem C9_union_idempotent {st st2 : Store} {objs : List (String × String)}
    {ρ0 : Nat} (hI : Inv st)
    (hsame : ∀ p ∈ objs, ∃ e, lookup st p.1 p.2 = some e ∧ rootOf st e.id = some ρ0)
    (hu : union st objs = some st2) :
    (∀ x ∈ st.nodes, rootOf st2 x.id = rootOf st x.id) ∧
    (∀ i, getNode st2 i = getNode st i) := by
  obtain ⟨roots, st1, h, hfa, hmax, hml⟩ := union_extract hu
  have uf := union_facts hI hfa hmax hml
  have fa := uf.fa
  have hids : ∀ r ∈ roots, r.id = ρ0 := by
    intro r hr
    obtain ⟨p, hp, e', hl', hr'⟩ := fa.roots_ids r hr
    obtain ⟨e, hl, hroot⟩ := hsame p hp
    have hl1 : lookup st1 p.1 p.2 = some e := fa.lookup_pres p.1 p.2 e hl
    have hee : e' = e := by rw [hl1] at hl'; exact (Option.some.inj hl').symm
    subst hee
    have hpres : rootOf st1 e'.id = rootOf st e'.id := fa.rootOf_pres e' (lookup_mem hl)
    rw [hpres, hroot] at hr'
    exact (Option.some.inj hr').symm
  have hhid : h.id = ρ0 := hids h uf.hmem
  have hfil : roots.filter (fun r => !(r.id == h.id)) = [] := by
    rw [List.filter_eq_nil_iff]
    intro r hr
    rw [hids r hr, hhid]
    simp
  have hlig : lighterIds roots h = [] := by
    unfold lighterIds
    rw [hfil]
    rfl
  have hfound : ∀ p ∈ objs, (lookup st p.1 p.2).isSome := by
    intro p hp
    obtain ⟨e, hl, _⟩ := hsame p hp
    rw [hl]
    rfl
  have hnodes : st1.nodes = st.nodes := fa.nodes_eq_of_found hfound
  constructor
  · intro x hx
    obtain ⟨ρx, sx, hρx, _, _⟩ := rooted_of_inv hI hx
    have hpres : rootOf st1 x.id = rootOf st x.id := fa.rootOf_pres x hx
    have hchar := uf.mp.rootOf_char x.id ρx (by rw [hpres, hρx])
    rw [hlig] at hchar
    have hif : (if ρx ∈ ([] : List Nat) then h.id else ρx) = ρx :=
      if_neg (List.not_mem_nil ρx)
    rw [hif] at hchar
    rw [hchar, hρx]
  · intro i
    by_cases hih : i = h.id
    · subst hih
      rw [uf.mp.getNode_h, hfil]
      have hg1 : getNode st1 h.id = some h := fa.roots_stored h uf.hmem
      have hg : getNode st h.id = some h := by
        show st.nodes.find? (fun x => x.id == h.id) = some h
        rw [← hnodes]
        exact hg1
      rw [hg]
      rfl
    · have hg1 : getNode st2 i = getNode st1 i := uf.mp.getNode_other i hih
      have hg2 : getNode st1 i = getNode st i := by
        show st1.nodes.find? (fun x => x.id == i) = st.nodes.find? (fun x => x.id == i)
        rw [hnodes]
      rw [hg1, hg2]

/-- C10: the heaviest root a `union` call selects is never reparented by that
call: its parent edge is untouched, so it keeps its self-loop and stays a
root. -/
theorem C10_heaviest_stays_root {st st1 st2 : Store} {objs : List (String × String)}
    {roots : List Node} {h : Node} (hI : Inv st)
    (hfa : findAll st objs = some (roots, st1))
    (hmax : maxByWeight roots = some h)
    (hu : union st objs = some st2) :
    parentOf st2 h.id = parentOf st1 h.id ∧
    parentOf st2 h.id = some h.id ∧ isRoot st2 h.id = true := by
  obtain ⟨roots', st1', h', hfa', hmax', hml'⟩ := union_extract hu
  rw [hfa] at hfa'
  have hd := Option.some.inj hfa'
  have hr1 : roots = roots' := congrArg Prod.fst hd
  have hs1 : st1 = st1' := congrArg Prod.snd hd
  subst hr1
  subst hs1
  rw [hmax] at hmax'
  have hh := Option.some.inj hmax'
  subst hh
  have uf := union_facts hI hfa hmax hml'
  have hp1 : parentOf st2 h.id = parentOf st1 h.id := uf.mp.parent_frame h.id uf.hnotin
  have hproot : parentOf st1 h.id = some h.id := uf.fa.roots_root h uf.hmem
  refine ⟨hp1, by rw [hp1, hproot], ?_⟩
  have hiR : isRoot st2 h.id = isRoot st1 h.id := uf.mp.isRoot_frame h.id uf.hnotin
  have hmem1 : h ∈ st1.nodes := getNode_mem (uf.fa.roots_stored h uf.hmem)
  rw [hiR]
  exact (isRoot_iff_parent_self (uf.fa.inv.oneEdge h hmem1)).mpr hproot

/-! ## Concrete instances of the claims -/

/-- Store of one merged two-element class, for the C1 instance. -/
def c1st : Store := (union emptyStore [("email", "a"), ("phone", "5")]).getD emptyStore

theorem C1_union_find_same_id_w :
    Inv emptyStore ∧ ([("email", "a"), ("phone", "5")] : List (String × String)) ≠ [] ∧
    union emptyStore [("email", "a"), ("phone", "5")] = some c1st ∧
    (∃ gid, ∀ p ∈ ([("email", "a"), ("phone", "5")] : List (String × String)),
      ∃ n2 st3, find c1st p.1 p.2 = some (n2, st3) ∧ n2.id = gid) :=
  ⟨by decide, by decide, rfl,
    @C1_union_find_same_id emptyStore c1st [("email", "a"), ("phone", "5")]
      (by decide) (by decide) rfl⟩

/-- A run whose `union` calls never hold two pairs of one non-heaviest
class. -/
def c2wops : List Op :=
  [Op.unionOp [("email", "a"), ("phone", "5")],
   Op.unionOp [("phone", "5"), ("email", "b")]]

/-- The store that run produces. -/
def c2wst : Store := (runOps emptyStore c2wops).getD emptyStore

theorem C2_weight_conservation_amended_w :
    opsOkB emptyStore c2wops = true ∧ runOps emptyStore c2wops = some c2wst ∧
    WeightConservation c2wst :=
  ⟨by decide, rfl,
    @C2_weight_conservation_amended c2wops c2wst (by decide) rfl⟩

theorem C3_empty_record_amended_w :
    filterRow [("email", "")] = ([] : List (String × String)) ∧
    union_from_stream emptyStore [[("email", "")]] = none :=
  ⟨rfl, C3_empty_record_amended rfl⟩

/-- Store of one merged two-element class, for the C4 instance. -/
def c4st : Store := (union emptyStore [("a", "1"), ("b", "2")]).getD emptyStore

/-- Result of a `find` on the non-root element of `c4st`. -/
def c4res : Node × Store := (find c4st "b" "2").getD (⟨0, "", "", 0⟩, emptyStore)

theorem C4_find_preserves_root_w :
    Inv c4st ∧ lookup c4st "b" "2" = some ⟨1, "b", "2", 1⟩ ∧
    isRoot c4st 1 = false ∧ find c4st "b" "2" = some (c4res.1, c4res.2) ∧
    (parentOf c4res.2 c4res.1.id = some c4res.1.id ∧
      isRoot c4res.2 c4res.1.id = true ∧
      (∀ x ∈ c4st.nodes, isRoot c4res.2 x.id = isRoot c4st x.id) ∧
      (∀ x ∈ c4res.2.nodes, (rootOf c4res.2 x.id).isSome)) :=
  ⟨by decide, rfl, by decide, rfl,
    @C4_find_preserves_root c4st c4res.2 "b" "2" ⟨1, "b", "2", 1⟩ c4res.1
      (by decide) rfl (by decide) rfl⟩

/-- A run mixing the three public operations, for the C5 instance. -/
def c5ops : List Op := [Op.unionOp [("a", "1"), ("b", "2")], Op.findOp "b" "2",
  Op.streamOp [[("a", "1"), ("c", "3")]]]

/-- The store that run produces. -/
def c5st : Store := (runOps emptyStore c5ops).getD emptyStore

theorem C5_one_parent_edge_w :
    runOps emptyStore c5ops = some c5st ∧
    ∀ x ∈ c5st.nodes, countSrc c5st.edges x.id = 1 :=
  ⟨rfl, @C5_one_parent_edge c5ops c5st rfl⟩

/-- A run leaving a depth-two chain, for the C6 instance. -/
def c6ops : List Op := [Op.unionOp [("a", "1"), ("b", "2")],
  Op.unionOp [("c", "3"), ("d", "4")], Op.unionOp [("b", "2"), ("d", "4")]]

/-- The store that run produces. -/
def c6st : Store := (runOps emptyStore c6ops).getD emptyStore

/-- Result of a `find` on the depth-two element of `c6st`. -/
def c6res : Node × Store := (find c6st "d" "4").getD (⟨0, "", "", 0⟩, emptyStore)

theorem C6_compression_flattens_w :
    Inv c6st ∧ lookup c6st "d" "4" = some ⟨3, "d", "4", 1⟩ ∧
    isRoot c6st 3 = false ∧ find c6st "d" "4" = some (c6res.1, c6res.2) ∧
    (∀ a ∈ c6st.nodes, Reaches c6st a.id c6res.1.id →
      parentOf c6res.2 a.id = some c6res.1.id) :=
  ⟨by decide, rfl, by decide, rfl,
    @C6_compression_flattens c6st c6res.2 "d" "4" ⟨3, "d", "4", 1⟩ c6res.1
      (by decide) rfl (by decide) rfl⟩

theorem C7_find_creates_singleton_w :
    Inv emptyStore ∧ lookup emptyStore "email" "a" = none ∧
    (∃ node st', find emptyStore "email" "a" = some (node, st') ∧
      node = ⟨emptyStore.nextId, "email", "a", 1⟩ ∧ node.weight = 1 ∧
      st'.nodes = emptyStore.nodes ++ [node] ∧
      st'.edges = emptyStore.edges ++ [(node.id, node.id)] ∧
      parentOf st' node.id = some node.id ∧ isRoot st' node.id = true ∧
      rootOf st' node.id = some node.id ∧ classSize st' node.id = 1) :=
  ⟨by decide, rfl, C7_find_creates_singleton (by decide) rfl⟩

/-- The pairs of the C8 instance. -/
def c8objs : List (String × String) := [("a", "1"), ("b", "2")]

/-- Roots and intermediate store their `findAll` produces. -/
def c8fa : List Node × Store := (findAll emptyStore c8objs).getD ([], emptyStore)

/-- The store their `union` produces. -/
def c8st2 : Store := (union emptyStore c8objs).getD emptyStore

theorem C8_first_max_target_w :
    Inv emptyStore ∧ findAll emptyStore c8objs = some (c8fa.1, c8fa.2) ∧
    maxByWeight c8fa.1 = some ⟨0, "a", "1", 1⟩ ∧
    union emptyStore c8objs = some c8st2 ∧
    ((∀ r ∈ c8fa.1, r.weight ≤ (⟨0, "a", "1", 1⟩ : Node).weight) ∧
     (∃ i, i < c8fa.1.length ∧ c8fa.1[i]? = some ⟨0, "a", "1", 1⟩ ∧
       ∀ j, j < i → ∀ x, c8fa.1[j]? = some x →
         x.weight < (⟨0, "a", "1", 1⟩ : Node).weight) ∧
     (∀ r ∈ c8fa.1, r.id ≠ (⟨0, "a", "1", 1⟩ : Node).id →
       parentOf c8st2 r.id = some (⟨0, "a", "1", 1⟩ : Node).id)) :=
  ⟨by decide, rfl, rfl, rfl,
    @C8_first_max_target emptyStore c8fa.2 c8st2 c8objs c8fa.1 ⟨0, "a", "1", 1⟩
      (by decide) rfl rfl rfl⟩

/-- Store of one merged two-element class, for the C9 instance. -/
def c9st : Store := (union emptyStore [("a", "1"), ("b", "2")]).getD emptyStore

/-- The store a repeated `union` of the same pairs produces. -/
def c9st2 : Store := (union c9st [("a", "1"), ("b", "2")]).getD emptyStore

theorem C9_union_idempotent_w :
    Inv c9st ∧
    (∀ p ∈ ([("a", "1"), ("b", "2")] : List (String × String)),
      ∃ e, lookup c9st p.1 p.2 = some e ∧ rootOf c9st e.id = some 0) ∧
    union c9st [("a", "1"), ("b", "2")] = some c9st2 ∧
    ((∀ x ∈ c9st.nodes, rootOf c9st2 x.id = rootOf c9st x.id) ∧
     (∀ i, getNode c9st2 i = getNode c9st i)) := by
  have hsame : ∀ p ∈ ([("a", "1"), ("b", "2")] : List (String × String)),
      ∃ e, lookup c9st p.1 p.2 = some e ∧ rootOf c9st e.id = some 0 := by
    intro p hp
    rcases List.mem_cons.mp hp with h1 | hp2
    · subst h1
      exact ⟨⟨0, "a", "1", 2⟩, rfl, rfl⟩
    · rcases List.mem_cons.mp hp2 with h2 | h3
      · subst h2
        exact ⟨⟨1, "b", "2", 1⟩, rfl, rfl⟩
      · cases h3
  exact ⟨by decide, hsame, rfl, C9_union_idempotent (by decide) hsame rfl⟩

/-- The pairs of the C10 instance. -/
def c10objs : List (String × String) := [("x", "1"), ("y", "2")]

/-- Roots and intermediate store their `findAll` produces. -/
def c10fa : List Node × Store := (findAll emptyStore c10objs).getD ([], emptyStore)

/-- The store their `union` produces. -/
def c10st2 : Store := (union emptyStore c10objs).getD emptyStore

theorem C10_heaviest_stays_root_w :
    Inv emptyStore ∧ findAll emptyStore c10objs = some (c10fa.1, c10fa.2) ∧
    maxByWeight c10fa.1 = some ⟨0, "x", "1", 1⟩ ∧
    union emptyStore c10objs = some c10st2 ∧
    (parentOf c10st2 0 = parentOf c10fa.2 0 ∧
     parentOf c10st2 0 = some 0 ∧ isRoot c10st2 0 = true) :=
  ⟨by decide, rfl, rfl, rfl,
    @C10_heaviest_stays_root emptyStore c10fa.2 c10st2 c10objs c10fa.1 ⟨0, "x", "1", 1⟩
      (by decide) rfl rfl rfl⟩
